import Mathlib

set_option maxHeartbeats 1000000

/-!
Verification of the `print_raster` packbits-style raster codec.

The Rust sources are embedded shallowly:
* bytes are `Nat` (wire values are `< 256`; wrapping `u8` arithmetic is
  written with explicit `% 256`),
* the async transports are pure values: a reader is the list of bytes still
  to come (a `futures::io::Cursor`, delivering `min(requested, available)`
  bytes per poll), a writer is the list of bytes emitted so far (a `Vec`,
  accepting every write in full, hence `poll_flush_line_buffer` always runs
  to completion and `flush_line_buffer_state` is `None` between calls),
* every suspendable loop is a fuel-indexed recursion returning `Option`
  (`none` = ran out of fuel; all theorems supply sufficient fuel).
-/

namespace PrintRaster

/-- `std::io::ErrorKind`, restricted to the kinds this library constructs. -/
inductive IOErrorKind where
  | invalidData
  | unexpectedEof
  | writeZero
  | other
deriving Repr, DecidableEq

/-- `src/print_raster/src/decode/limits.rs`: `Limits`. -/
structure Limits where
  bytesPerLine : Nat
  bytesPerPage : Nat
deriving Repr, DecidableEq

/-- `u64::MAX`. -/
def u64Max : Nat := 2 ^ 64 - 1

/-- `Limits::NO_LIMITS`. -/
def Limits.noLimits : Limits := ⟨u64Max, u64Max⟩

/-- `decode/compressed.rs`: `CompressedRasterDecoderState`. -/
inductive DecState where
  | begin
  | beginInlineBlock (start : Nat)
  | readInlineBlock (repeatLast start remaining : Nat)
  | useBuffer (start remaining : Nat)
deriving Repr, DecidableEq

/-- `decode/compressed.rs`: fields of `CompressedRasterDecoder` (minus the
pinned reader, which is passed separately as the byte list still unread). -/
structure Decoder where
  chunkSize : Nat
  bytesPerLine : Nat
  fillByte : Nat
  lineBuffer : List Nat
  lineRepeat : Nat
  state : DecState
  bytesRemaining : Nat
deriving Repr, DecidableEq

/-- `decode/compressed.rs`: `CompressedRasterDecoder::new`.  The `usize`
conversion of `bytes_per_line.min(num_bytes)` cannot fail on a 64-bit host,
and the uninitialised line buffer is modelled as zeros (no theorem depends
on the initial contents). -/
def Decoder.new (limits : Limits) (chunkSize bytesPerLine numBytes fillByte : Nat) :
    Except IOErrorKind Decoder :=
  if limits.bytesPerLine < bytesPerLine then .error .invalidData
  else if limits.bytesPerPage < numBytes then .error .invalidData
  else if bytesPerLine ≠ 0 ∧ (chunkSize = 0 ∨ bytesPerLine % chunkSize ≠ 0) then
    .error .invalidData
  else if numBytes ≠ 0 ∧ (bytesPerLine = 0 ∨ numBytes % bytesPerLine ≠ 0) then
    .error .invalidData
  else .ok
    { chunkSize := chunkSize
      bytesPerLine := bytesPerLine
      fillByte := fillByte
      lineBuffer := List.replicate (min bytesPerLine numBytes) 0
      lineRepeat := 0
      state := .begin
      bytesRemaining := numBytes }

/-- Outcome of one iteration of the decoder's `loop`: either a
`Poll::Ready` return (`done`) or fall through to the next iteration
(`next`) with updated decoder, transport, buffer space and delivered
bytes. -/
inductive ReadLoopStep where
  | done (r : Except IOErrorKind (List Nat) × Decoder × List Nat)
  | next (d : Decoder) (input : List Nat) (bufSpace : Nat) (acc : List Nat)
deriving Repr

/-- One iteration of the `loop { match this.state { ... } }` body of
`CompressedRasterDecoder::poll_read` (`decode/compressed.rs`,
lines 129-318), over a cursor transport.  `bufSpace` is the space left in
the caller's (already capped) buffer, `acc` the bytes delivered so far
(`total_read`).  The `0x81..` opcode length `!code + 2` is `257 - code`
for a byte code.  The repeat-synthesis `while` loop (lines 239-243) is
embedded by its net effect: `repeat_last` copies of the last chunk are
placed after the cursor. -/
def pollReadStep (d : Decoder) (input : List Nat) (bufSpace : Nat) (acc : List Nat) :
    ReadLoopStep :=
  match d.state with
  | .begin =>
    match input with
    | [] => .done (.ok acc, { d with bytesRemaining := d.bytesRemaining - acc.length }, [])
    | c :: rest =>
      .next { d with lineRepeat := c, state := .beginInlineBlock 0 } rest bufSpace acc
  | .beginInlineBlock start =>
    match input with
    | [] => .done (.error .unexpectedEof, d, [])
    | c :: rest =>
      if c ≤ 0x7f then
        -- repeat single pixel
        let ext := (c + 1) * d.chunkSize
        if d.lineBuffer.length - start < ext then .done (.error .invalidData, d, rest)
        else .next { d with state := .readInlineBlock c start d.chunkSize } rest bufSpace acc
      else if c = 0x80 then
        -- reset all remaining pixels to the fill byte
        .next
          { d with
            lineBuffer := d.lineBuffer.take start ++
              List.replicate (d.lineBuffer.length - start) d.fillByte
            state := .useBuffer start (d.lineBuffer.length - start) } rest bufSpace acc
      else
        -- pixel sequence; for a byte code, !code + 2 = 257 - code
        let len := 257 - c
        let ext := len * d.chunkSize
        if d.lineBuffer.length - start < ext then .done (.error .invalidData, d, rest)
        else .next { d with state := .readInlineBlock 0 start ext } rest bufSpace acc
  | .readInlineBlock repeatLast start remaining =>
    let nReq := min bufSpace remaining
    let n := min nReq input.length
    if n = 0 then .done (.error .unexpectedEof, d, input)
    else
      let lb1 := d.lineBuffer.take start ++ input.take n ++ d.lineBuffer.drop (start + n)
      let start1 := start + n
      let remaining1 := remaining - n
      if remaining1 = 0 then
        let nAvail := n + repeatLast * d.chunkSize
        let lastChunk := (lb1.take start1).drop (start1 - d.chunkSize)
        let lb2 :=
          if repeatLast = 0 then lb1
          else lb1.take start1 ++ (List.replicate repeatLast lastChunk).flatten ++
            lb1.drop (start1 + repeatLast * d.chunkSize)
        let read := min bufSpace nAvail
        let out := (lb2.drop start).take read
        .next { d with lineBuffer := lb2, state := .useBuffer (start + read) (nAvail - read) }
          (input.drop n) (bufSpace - read) (acc ++ out)
      else
        let out := (lb1.drop start).take n
        .done (.ok (acc ++ out),
          { d with
            lineBuffer := lb1
            state := .readInlineBlock repeatLast start1 remaining1
            bytesRemaining := d.bytesRemaining - (acc.length + n) },
          input.drop n)
  | .useBuffer start remaining =>
    let read := min bufSpace remaining
    let out := (d.lineBuffer.drop start).take read
    let start1 := start + read
    let remaining1 := remaining - read
    let acc1 := acc ++ out
    let buf1 := bufSpace - read
    if remaining1 = 0 then
      if start1 = d.lineBuffer.length then
        if 0 < d.lineRepeat then
          .next
            { d with
              lineRepeat := d.lineRepeat - 1
              state := .useBuffer 0 d.lineBuffer.length } input buf1 acc1
        else if acc1.length ≠ 0 then
          .done (.ok acc1,
            { d with state := .begin, bytesRemaining := d.bytesRemaining - acc1.length },
            input)
        else .next { d with state := .begin } input buf1 acc1
      else if acc1.length ≠ 0 then
        .done (.ok acc1,
          { d with
            state := .beginInlineBlock start1
            bytesRemaining := d.bytesRemaining - acc1.length },
          input)
      else .next { d with state := .beginInlineBlock start1 } input buf1 acc1
    else
      .done (.ok acc1,
        { d with
          state := .useBuffer start1 remaining1
          bytesRemaining := d.bytesRemaining - acc1.length },
        input)

/-- The decoder's `loop`, iterating `pollReadStep` under a fuel bound. -/
def pollReadLoop : Nat → Decoder → List Nat → Nat → List Nat →
    Option (Except IOErrorKind (List Nat) × Decoder × List Nat)
  | 0, d, input, bufSpace, acc =>
    match pollReadStep d input bufSpace acc with
    | .done r => some r
    | .next _ _ _ _ => none
  | fuel + 1, d, input, bufSpace, acc =>
    match pollReadStep d input bufSpace acc with
    | .done r => some r
    | .next d1 i1 b1 a1 => pollReadLoop fuel d1 i1 b1 a1

theorem pollReadLoop_done {d : Decoder} {input : List Nat} {bufSpace : Nat} {acc : List Nat}
    {r : Except IOErrorKind (List Nat) × Decoder × List Nat}
    (h : pollReadStep d input bufSpace acc = .done r) :
    ∀ fuel, pollReadLoop fuel d input bufSpace acc = some r := by
  intro fuel
  cases fuel <;> simp [pollReadLoop, h]

theorem pollReadLoop_next {d d1 : Decoder} {input i1 : List Nat} {bufSpace b1 : Nat}
    {acc a1 : List Nat} (fuel : Nat)
    (h : pollReadStep d input bufSpace acc = .next d1 i1 b1 a1) :
    pollReadLoop (fuel + 1) d input bufSpace acc = pollReadLoop fuel d1 i1 b1 a1 := by
  simp [pollReadLoop, h]

/-- `CompressedRasterDecoder::poll_read` (lines 115-127 + the loop): the
caller's buffer is capped to `min(bytes_remaining, buf.len())`; a zero-sized
capped buffer returns `Ok(0)` at once without touching the transport. -/
def pollRead (d : Decoder) (input : List Nat) (bufLen fuel : Nat) :
    Option (Except IOErrorKind (List Nat) × Decoder × List Nat) :=
  if min d.bytesRemaining bufLen = 0 then some (.ok [], d, input)
  else pollReadLoop fuel d input (min d.bytesRemaining bufLen) []

/-- Driving a `CompressedRasterDecoder` to the end (`read_to_end`): repeated
`poll_read` with all of `bytes_remaining` as buffer space, stopping at
`Ok(0)` or when the declared total has been delivered. -/
def decodeAll : Nat → Decoder → List Nat → Option (Except IOErrorKind (List Nat))
  | 0, _, _ => none
  | fuel + 1, d, input =>
    if d.bytesRemaining = 0 then some (.ok [])
    else
      match pollRead d input d.bytesRemaining (fuel + 1) with
      | none => none
      | some (.error e, _, _) => some (.error e)
      | some (.ok out, d1, input1) =>
        if out.length = 0 then some (.ok [])
        else
          match decodeAll fuel d1 input1 with
          | none => none
          | some (.error e) => some (.error e)
          | some (.ok tail) => some (.ok (out ++ tail))

/-- `decode/uncompressed.rs`: `UncompressedRasterDecoder` (the pinned reader
is passed separately). -/
structure UncompressedDecoder where
  bytesRemaining : Nat
deriving Repr, DecidableEq

/-- `UncompressedRasterDecoder::new`. -/
def UncompressedDecoder.new (limits : Limits) (numBytes : Nat) :
    Except IOErrorKind UncompressedDecoder :=
  if limits.bytesPerPage < numBytes then .error .invalidData
  else .ok ⟨numBytes⟩

/-- `UncompressedRasterDecoder::poll_read` over a cursor transport. -/
def UncompressedDecoder.pollRead (d : UncompressedDecoder) (input : List Nat)
    (bufLen : Nat) : List Nat × UncompressedDecoder × List Nat :=
  let bufSize := min d.bytesRemaining bufLen
  if bufSize = 0 then ([], d, input)
  else
    let n := min bufSize input.length
    (input.take n, ⟨d.bytesRemaining - n⟩, input.drop n)

/-! ### Encoder (`src/print_raster/src/encode/compressed.rs`)

The sink is a `Vec`, so every `poll_write` on it succeeds in full and
`poll_flush_line_buffer` runs to completion whenever invoked; its emitted
bytes are computed by the pure functions below, which mirror its
`BeginInlineBlock`/`WriteInlineBlock`/`WriteInlineBlockData` states.  The
iterator `line_buffer[start..].chunks(chunk_size)` is embedded as
`chunksOf chunk_size` of the suffix. -/

/-- `slice::chunks k` (for `k ≥ 1`; the source never calls it with `k = 0`
on a nonempty slice — the constructors reject `chunk_size = 0` whenever the
line buffer is nonempty).  For `k ≥ 1`, `(a :: l).drop k = l.drop (k-1)`. -/
def chunksOf (k : Nat) : List Nat → List (List Nat)
  | [] => []
  | a :: l => ((a :: l).take k) :: chunksOf k (l.drop (k - 1))
termination_by l => l.length
decreasing_by
  simp only [List.length_cons, List.length_drop]
  omega

/-- The run-scan of the `first_chunk == second_chunk` branch
(`encode/compressed.rs` lines 145-151): starting from `tag`, extend while
the chunk equals `c` and the tag is below `0x7f`. -/
def runLen (c : List Nat) : List (List Nat) → Nat → Nat
  | [], t => t
  | c1 :: rest, t => if c1 ≠ c ∨ 0x7f ≤ t then t else runLen c rest (t + 1)

/-- The literal-scan of the unequal branch (lines 159-170): extend while the
chunk differs from its immediate predecessor, stopping once the count
reaches `0x7f` (checked after incrementing). -/
def litLen : List Nat → List (List Nat) → Nat → Nat
  | _, [], cnt => cnt
  | prev, c :: rest, cnt =>
    if c = prev then cnt
    else if 0x7f ≤ cnt + 1 then cnt + 1
    else litLen c rest (cnt + 1)

/-- `(!count).wrapping_add(2)` on a `u8` count: `257 - count (mod 256)`. -/
def litTag (count : Nat) : Nat := (257 - count) % 256

theorem runLen_ge (c : List Nat) : ∀ rest t, t ≤ runLen c rest t := by
  intro rest
  induction rest with
  | nil => intro t; simp [runLen]
  | cons c1 r ih =>
    intro t
    simp only [runLen]
    split
    · exact Nat.le_refl _
    · exact Nat.le_trans (Nat.le_succ t) (ih (t + 1))

theorem litLen_ge : ∀ rest prev cnt, cnt ≤ litLen prev rest cnt := by
  intro rest
  induction rest with
  | nil => intro prev cnt; simp [litLen]
  | cons c r ih =>
    intro prev cnt
    simp only [litLen]
    split
    · exact Nat.le_refl _
    · split
      · exact Nat.le_succ cnt
      · exact Nat.le_trans (Nat.le_succ cnt) (ih c (cnt + 1))

/-- The block loop of `poll_flush_line_buffer` (`FlushLineBufferState`
transitions `BeginInlineBlock → WriteInlineBlock → WriteInlineBlockData`),
as the bytes it appends to the sink.  The run branch writes the chunk at
index `tag` (`start + chunk_size*tag .. start + chunk_size*(tag+1)`), the
literal branch the first `count` chunks, the lone-chunk branch tag `0`. -/
def encBlocks : List (List Nat) → List Nat
  | [] => []
  | [c] => 0 :: c
  | c1 :: c2 :: rest =>
    if c1 = c2 then
      let t := runLen c1 rest 1
      t :: (((c1 :: c2 :: rest).getD t []) ++ encBlocks ((c1 :: c2 :: rest).drop (t + 1)))
    else
      let cnt := litLen c2 rest 1
      litTag cnt :: (((c1 :: c2 :: rest).take cnt).flatten ++ encBlocks ((c1 :: c2 :: rest).drop cnt))
termination_by cs => cs.length
decreasing_by
  · simp only [List.length_drop, List.length_cons]
    omega
  · simp only [List.length_drop, List.length_cons]
    have := litLen_ge rest c2 1
    omega

/-- One full run of `poll_flush_line_buffer` from `Begin { line_repeat }`:
the line-repeat byte followed by the blocks of the line. -/
def encLine (k r : Nat) (l : List Nat) : List Nat := r :: encBlocks (chunksOf k l)

/-- `buf.iter().zip(line_buffer[..]).position(|(a, b)| a != b)`
(`encode/compressed.rs` lines 288-294). -/
def diffPos : List Nat → List Nat → Option Nat
  | a :: as_, b :: bs => if a ≠ b then some 0 else (diffPos as_ bs).map (· + 1)
  | _, _ => none

/-- `encode/compressed.rs`: fields of `CompressedRasterEncoder` (minus the
pinned writer and `flush_line_buffer_state`, which is `None` at every call
boundary over a `Vec` sink). -/
structure Encoder where
  chunkSize : Nat
  bytesPerLine : Nat
  bytesRemaining : Nat
  lineBuffer : List Nat
  lineRepeat : Option Nat
  posInLine : Nat
deriving Repr, DecidableEq

/-- `CompressedRasterEncoder::new`. -/
def Encoder.new (chunkSize bytesPerLine numBytes : Nat) : Except IOErrorKind Encoder :=
  if bytesPerLine ≠ 0 ∧ (chunkSize = 0 ∨ bytesPerLine % chunkSize ≠ 0) then
    .error .invalidData
  else if numBytes ≠ 0 ∧ (bytesPerLine = 0 ∨ numBytes % bytesPerLine ≠ 0) then
    .error .invalidData
  else .ok
    { chunkSize := chunkSize
      bytesPerLine := bytesPerLine
      bytesRemaining := numBytes
      lineBuffer := List.replicate (min bytesPerLine numBytes) 0
      lineRepeat := none
      posInLine := 0 }

/-- Outcome of one iteration of the encoder's `while !buf.is_empty()`
loop: either the loop exits (`done`, when the buffer is empty) or falls
through (`next`). -/
inductive WriteLoopStep where
  | done (r : List Nat × Encoder × Nat)
  | next (e : Encoder) (buf : List Nat) (out : List Nat) (total : Nat)
deriving Repr

/-- One iteration of the `while !buf.is_empty()` loop of
`CompressedRasterEncoder::poll_write` (lines 251-339) over a `Vec` sink.
`e.bytesRemaining` holds the value at call entry (the field is only
updated after the loop); `out` is the byte list appended to the sink,
`total` is `total_write`. -/
def encStep (e : Encoder) (buf : List Nat) (out : List Nat) (total : Nat) : WriteLoopStep :=
  if buf.isEmpty then .done (out, e, total)
  else
    let L := e.lineBuffer.length
    match e.lineRepeat with
    | none =>
      let btw := min buf.length (L - e.posInLine)
      let lb1 := e.lineBuffer.take e.posInLine ++ buf.take btw ++
        e.lineBuffer.drop (e.posInLine + btw)
      let buf1 := buf.drop btw
      let total1 := total + btw
      if e.posInLine + btw = L then
        if e.bytesRemaining ≤ total1 then
          .next { e with lineBuffer := lb1, posInLine := 0 } buf1
            (out ++ encLine e.chunkSize 0 lb1) total1
        else
          .next
            { e with
              lineBuffer := lb1
              posInLine := 0
              lineRepeat := some 0 } buf1 out total1
      else
        .next { e with lineBuffer := lb1, posInLine := e.posInLine + btw } buf1 out total1
    | some r =>
      let btw := min buf.length (L - e.posInLine)
      match diffPos (buf.take btw) ((e.lineBuffer.drop e.posInLine).take btw) with
      | some dp =>
        .next { e with lineRepeat := none, posInLine := e.posInLine + dp } (buf.drop dp)
          (out ++ encLine e.chunkSize r e.lineBuffer) (total + dp)
      | none =>
        let buf1 := buf.drop btw
        let total1 := total + btw
        if e.posInLine + btw = L then
          if r + 1 = 255 ∨ e.bytesRemaining ≤ total1 then
            .next { e with lineRepeat := none, posInLine := 0 } buf1
              (out ++ encLine e.chunkSize (r + 1) e.lineBuffer) total1
          else
            .next { e with lineRepeat := some (r + 1), posInLine := 0 } buf1 out total1
        else
          .next { e with lineRepeat := some r, posInLine := e.posInLine + btw } buf1 out total1

/-- The encoder's loop, iterating `encStep` under a fuel bound. -/
def encLoop : Nat → Encoder → List Nat → List Nat → Nat → Option (List Nat × Encoder × Nat)
  | 0, e, buf, out, total =>
    match encStep e buf out total with
    | .done r => some r
    | .next _ _ _ _ => none
  | fuel + 1, e, buf, out, total =>
    match encStep e buf out total with
    | .done r => some r
    | .next e1 b1 o1 t1 => encLoop fuel e1 b1 o1 t1

theorem encLoop_done {e : Encoder} {buf out : List Nat} {total : Nat}
    {r : List Nat × Encoder × Nat} (h : encStep e buf out total = .done r) :
    ∀ fuel, encLoop fuel e buf out total = some r := by
  intro fuel
  cases fuel <;> simp [encLoop, h]

theorem encLoop_next {e e1 : Encoder} {buf b1 out o1 : List Nat} {total t1 : Nat} (fuel : Nat)
    (h : encStep e buf out total = .next e1 b1 o1 t1) :
    encLoop (fuel + 1) e buf out total = encLoop fuel e1 b1 o1 t1 := by
  simp [encLoop, h]

theorem encStep_nil (e : Encoder) (out : List Nat) (total : Nat) :
    encStep e [] out total = .done (out, e, total) := rfl

/-- `CompressedRasterEncoder::poll_write`: cap the caller's buffer to
`min(bytes_remaining, buf.len())`, run the loop, then
`bytes_remaining = bytes_remaining.saturating_sub(total_write)`. -/
def pollWrite (e : Encoder) (buf : List Nat) (fuel : Nat) :
    Option (List Nat × Encoder × Nat) :=
  let capped := buf.take (min e.bytesRemaining buf.length)
  match encLoop fuel e capped [] 0 with
  | none => none
  | some (out, e1, total) =>
    some (out, { e1 with bytesRemaining := e1.bytesRemaining - total }, total)

/-- Writing an entire page of `data` through a fresh
`CompressedRasterEncoder` with `num_bytes = data.length` in one
`poll_write` call (sufficient fuel for the whole buffer). -/
def encodeData (chunkSize bytesPerLine : Nat) (data : List Nat) : Option (List Nat) :=
  match Encoder.new chunkSize bytesPerLine data.length with
  | .error _ => none
  | .ok e =>
    match pollWrite e data (2 * data.length + 4) with
    | none => none
    | some (out, _, _) => some out

/-! ### Page-header reading (`src/print_raster/src/reader/common/mod.rs`) -/

/-- Outcome of `CommonRasterPageReaderFor::poll` up to header parsing:
`noMorePages` is the `Ok(None)` resolution, `headerComplete` carries the
header bytes handed to `F::header_from_bytes`. -/
inductive PageReadOutcome where
  | noMorePages
  | headerComplete (header : List Nat)
deriving Repr, DecidableEq

/-- The read loop of `CommonRasterPageReaderFor::poll` (lines 123-134).
The transport is a list of successive `poll_read` results (each truncated
to the space left in the header buffer, as `AsyncRead` guarantees);
an exhausted list means the future stays pending (`none`). -/
def readPageHeader (headerSize : Nat) : Nat → List Nat → List (List Nat) →
    Option (Except IOErrorKind PageReadOutcome)
  | _, _, [] => none
  | start, bufAcc, r :: rs =>
    let n := min r.length (headerSize - start)
    let bufAcc1 := bufAcc ++ r.take n
    let start1 := start + n
    if headerSize ≤ start1 then some (.ok (.headerComplete bufAcc1))
    else if n = 0 then some (.ok .noMorePages)
    else readPageHeader headerSize start1 bufAcc1 rs

/-! ### Page-writer finish (`src/print_raster/src/writer/common/mod.rs`) -/

/-- `CommonRasterPageWriter::finish` (lines 136-142): captures whether the
encoder still has bytes pending. -/
structure PageWriterFinish where
  notAllBytesWritten : Bool
deriving Repr, DecidableEq

/-- `finish` applied to a writer whose encoder reports `bytesRemaining`. -/
def finishOfWriter (bytesRemaining : Nat) : PageWriterFinish :=
  ⟨decide (0 < bytesRemaining)⟩

/-- `CommonRasterPageWriterFinish::poll` (lines 195-207): first drives
`poll_close` on the transport (its result is the `closeResult` argument;
the returned `Bool` records that `poll_close` was invoked), then errors if
not all bytes were written. -/
def finishPoll (f : PageWriterFinish) (closeResult : Except IOErrorKind Unit) :
    Except IOErrorKind Unit × Bool :=
  match closeResult with
  | .error e => (.error e, true)
  | .ok _ => if f.notAllBytesWritten then (.error .other, true) else (.ok (), true)

/-! ### CUPS sync word (`src/print_raster/src/reader/cups/unified/mod.rs`) -/

/-- `model/cups.rs`: `CupsSyncWord`. -/
inductive CupsSyncWord where
  | v1BigEndian
  | v1LittleEndian
  | v2BigEndian
  | v2LittleEndian
  | v3BigEndian
  | v3LittleEndian
deriving Repr, DecidableEq

/-- `error/cups.rs`: the `CupsRasterError` cases reachable from the
sync-word reader. -/
inductive CupsRasterError where
  | io (kind : IOErrorKind)
  | invalidSyncWord
deriving Repr, DecidableEq

/-- The `match this.buffer` of `CupsRasterReaderReadSyncWord::poll`
(lines 217-225); byte values of `R a S t 2 3`. -/
def syncWordOfBytes (b0 b1 b2 b3 : Nat) : Except CupsRasterError CupsSyncWord :=
  if b0 = 0x52 ∧ b1 = 0x61 ∧ b2 = 0x53 ∧ b3 = 0x74 then .ok .v1BigEndian
  else if b0 = 0x74 ∧ b1 = 0x53 ∧ b2 = 0x61 ∧ b3 = 0x52 then .ok .v1LittleEndian
  else if b0 = 0x52 ∧ b1 = 0x61 ∧ b2 = 0x53 ∧ b3 = 0x32 then .ok .v2BigEndian
  else if b0 = 0x32 ∧ b1 = 0x53 ∧ b2 = 0x61 ∧ b3 = 0x52 then .ok .v2LittleEndian
  else if b0 = 0x52 ∧ b1 = 0x61 ∧ b2 = 0x53 ∧ b3 = 0x33 then .ok .v3BigEndian
  else if b0 = 0x33 ∧ b1 = 0x53 ∧ b2 = 0x61 ∧ b3 = 0x52 then .ok .v3LittleEndian
  else .error .invalidSyncWord

/-- `CupsRasterReaderReadSyncWord::poll`: read 4 bytes (EOF before the 4th
byte is `UnexpectedEof`), then dispatch on them. -/
def readSyncWord (input : List Nat) : Except CupsRasterError CupsSyncWord :=
  match input with
  | b0 :: b1 :: b2 :: b3 :: _ => syncWordOfBytes b0 b1 b2 b3
  | _ => .error (.io .unexpectedEof)

/-! ### List surgery helpers -/

theorem take_append_left {α : Type} {l₁ l₂ : List α} {n : Nat} (h : n ≤ l₁.length) :
    (l₁ ++ l₂).take n = l₁.take n := by
  simp [List.take_append_eq_append_take, Nat.sub_eq_zero_of_le h]

theorem drop_append_left {α : Type} {l₁ l₂ : List α} {n : Nat} (h : n ≤ l₁.length) :
    (l₁ ++ l₂).drop n = l₁.drop n ++ l₂ := by
  simp [List.drop_append_eq_append_drop, Nat.sub_eq_zero_of_le h]

/-! ### C6: constructor limit checks -/

/-- C6 supporting theorem (see `c6_decoder_limits`). -/
theorem c6_aux_uncompressed (limits : Limits) (num : Nat) (h : num ≤ limits.bytesPerPage) :
    UncompressedDecoder.new limits num = .ok ⟨num⟩ := by
  simp [UncompressedDecoder.new, Nat.not_lt_of_le h]

/-- C6: `CompressedRasterDecoder::new` rejects `bytes_per_line` above
`limits.bytes_per_line` and `num_bytes` above `limits.bytes_per_page` with
`InvalidData`; `UncompressedRasterDecoder::new` rejects `num_bytes` above
`limits.bytes_per_page`; with the limits respected and the layout valid
(`bytes_per_line` a multiple of a nonzero `chunk_size` unless zero,
`num_bytes` a multiple of `bytes_per_line` unless zero), both succeed. -/
theorem c6_decoder_limits (limits : Limits) (k bpl num fill : Nat) :
    (limits.bytesPerLine < bpl → Decoder.new limits k bpl num fill = .error .invalidData) ∧
    (limits.bytesPerPage < num → Decoder.new limits k bpl num fill = .error .invalidData) ∧
    (limits.bytesPerPage < num → UncompressedDecoder.new limits num = .error .invalidData) ∧
    (bpl ≤ limits.bytesPerLine → num ≤ limits.bytesPerPage →
      ¬(bpl ≠ 0 ∧ (k = 0 ∨ bpl % k ≠ 0)) → ¬(num ≠ 0 ∧ (bpl = 0 ∨ num % bpl ≠ 0)) →
      ∃ d, Decoder.new limits k bpl num fill = .ok d) ∧
    (num ≤ limits.bytesPerPage → ∃ d, UncompressedDecoder.new limits num = .ok d) := by
  refine ⟨?_, ?_, ?_, ?_, ?_⟩
  · intro h
    simp [Decoder.new, h]
  · intro h
    simp only [Decoder.new]
    split
    · rfl
    · simp [h]
  · intro h
    simp [UncompressedDecoder.new, h]
  · intro h1 h2 h3 h4
    refine ⟨⟨k, bpl, fill, List.replicate (min bpl num) 0, 0, .begin, num⟩, ?_⟩
    simp [Decoder.new, Nat.not_lt_of_le h1, Nat.not_lt_of_le h2, h3, h4]
  · intro h
    exact ⟨_, c6_aux_uncompressed limits num h⟩

/-- C6 witness: concrete rejections and acceptances. -/
theorem c6_decoder_limits_witness :
    Decoder.new ⟨5, 50⟩ 1 10 60 0 = .error .invalidData ∧
    UncompressedDecoder.new ⟨5, 50⟩ 60 = .error .invalidData ∧
    (∃ d, Decoder.new ⟨50, 500⟩ 2 10 100 0 = .ok d) ∧
    (∃ d, UncompressedDecoder.new ⟨50, 500⟩ 100 = .ok d) :=
  ⟨(c6_decoder_limits ⟨5, 50⟩ 1 10 60 0).1 (by decide),
   (c6_decoder_limits ⟨5, 50⟩ 1 10 60 0).2.2.1 (by decide),
   (c6_decoder_limits ⟨50, 500⟩ 2 10 100 0).2.2.2.1 (by decide) (by decide)
     (by decide) (by decide),
   (c6_decoder_limits ⟨50, 500⟩ 2 10 100 0).2.2.2.2 (by decide)⟩

/-! ### C7: finish refuses incomplete pages and always closes -/

/-- C7: `finish` built from an encoder with `bytes_remaining` pending:
its poll always invokes `close` on the transport; with bytes still pending
it resolves to an error; with `bytes_remaining = 0` and a successful close
it resolves `Ok`. -/
theorem c7_finish_closes (remaining : Nat) (closeResult : Except IOErrorKind Unit) :
    (finishPoll (finishOfWriter remaining) closeResult).2 = true ∧
    (0 < remaining → ∀ u, (finishPoll (finishOfWriter remaining) closeResult).1 ≠ .ok u) ∧
    (remaining = 0 → closeResult = .ok () →
      finishPoll (finishOfWriter remaining) closeResult = (.ok (), true)) := by
  refine ⟨?_, ?_, ?_⟩
  · cases closeResult with
    | error e => rfl
    | ok u =>
      simp only [finishPoll]
      split <;> rfl
  · intro h u
    cases closeResult with
    | error e => simp [finishPoll]
    | ok v =>
      simp [finishPoll, finishOfWriter, h]
  · intro h hc
    subst h hc
    rfl

/-- C7 witness. -/
theorem c7_finish_closes_witness :
    (finishPoll (finishOfWriter 3) (.ok ())).2 = true ∧
    (finishPoll (finishOfWriter 3) (.ok ())).1 ≠ .ok () ∧
    finishPoll (finishOfWriter 0) (.ok ()) = (.ok (), true) :=
  ⟨(c7_finish_closes 3 (.ok ())).1,
   (c7_finish_closes 3 (.ok ())).2.1 (by decide) (),
   (c7_finish_closes 0 (.ok ())).2.2 rfl rfl⟩

/-! ### C8: sync-word dispatch -/

/-- C8: the first four bytes map each of the six CUPS sync words to its
variant and byte order, and every other 4-byte prefix is rejected with
`InvalidSyncWord`. -/
theorem c8_sync_word_dispatch :
    readSyncWord (0x52 :: 0x61 :: 0x53 :: 0x74 :: []) = .ok .v1BigEndian ∧
    readSyncWord (0x74 :: 0x53 :: 0x61 :: 0x52 :: []) = .ok .v1LittleEndian ∧
    readSyncWord (0x52 :: 0x61 :: 0x53 :: 0x32 :: []) = .ok .v2BigEndian ∧
    readSyncWord (0x32 :: 0x53 :: 0x61 :: 0x52 :: []) = .ok .v2LittleEndian ∧
    readSyncWord (0x52 :: 0x61 :: 0x53 :: 0x33 :: []) = .ok .v3BigEndian ∧
    readSyncWord (0x33 :: 0x53 :: 0x61 :: 0x52 :: []) = .ok .v3LittleEndian ∧
    (∀ b0 b1 b2 b3 : Nat, ∀ rest : List Nat,
      readSyncWord (b0 :: b1 :: b2 :: b3 :: rest) = syncWordOfBytes b0 b1 b2 b3) ∧
    (∀ b0 b1 b2 b3 : Nat,
      ¬(b0 = 0x52 ∧ b1 = 0x61 ∧ b2 = 0x53 ∧ b3 = 0x74) →
      ¬(b0 = 0x74 ∧ b1 = 0x53 ∧ b2 = 0x61 ∧ b3 = 0x52) →
      ¬(b0 = 0x52 ∧ b1 = 0x61 ∧ b2 = 0x53 ∧ b3 = 0x32) →
      ¬(b0 = 0x32 ∧ b1 = 0x53 ∧ b2 = 0x61 ∧ b3 = 0x52) →
      ¬(b0 = 0x52 ∧ b1 = 0x61 ∧ b2 = 0x53 ∧ b3 = 0x33) →
      ¬(b0 = 0x33 ∧ b1 = 0x53 ∧ b2 = 0x61 ∧ b3 = 0x52) →
      syncWordOfBytes b0 b1 b2 b3 = .error .invalidSyncWord) := by
  refine ⟨rfl, rfl, rfl, rfl, rfl, rfl, fun _ _ _ _ _ => rfl, ?_⟩
  intro b0 b1 b2 b3 h1 h2 h3 h4 h5 h6
  simp [syncWordOfBytes, h1, h2, h3, h4, h5, h6]

/-- C8 witness: a prefix outside the six sync words is rejected. -/
theorem c8_sync_word_dispatch_witness :
    syncWordOfBytes 0x00 0x01 0x02 0x03 = .error .invalidSyncWord :=
  c8_sync_word_dispatch.2.2.2.2.2.2.2 0x00 0x01 0x02 0x03
    (by decide) (by decide) (by decide) (by decide) (by decide) (by decide)

/-! ### C4: zero-reads while reading a page header -/

/-- C4 counterexample: a transport that yields one header byte and then
returns 0 makes the page-header future resolve to the clean "no more
pages" result, not to an `UnexpectedEof` error (the loop in
`CommonRasterPageReaderFor::poll` returns `Ok(None)` whenever a read
returns 0 before the header is complete, regardless of `start`). -/
theorem c4_counterexample :
    readPageHeader 420 0 [] [[1], []] = some (.ok .noMorePages) ∧
    readPageHeader 420 0 [] [[1], []] ≠ some (.error .unexpectedEof) := by
  refine ⟨rfl, ?_⟩
  intro h
  rw [show readPageHeader 420 0 [] [[1], []] = some (.ok .noMorePages) from rfl] at h
  exact Except.noConfusion (Option.some.inj h)

/-- C4 (amended): whenever the transport returns 0 while the fixed-size
page header is still incomplete — at the very first byte or after any
number of already-read header bytes — `CommonRasterPageReaderFor::poll`
resolves to the clean none-result ("no more pages"), never to an error. -/
theorem c4_header_eof_none (headerSize start : Nat) (bufAcc : List Nat)
    (rs : List (List Nat)) (h : start < headerSize) :
    readPageHeader headerSize start bufAcc ([] :: rs) = some (.ok .noMorePages) := by
  simp [readPageHeader, Nat.not_le_of_lt h]

/-- C4 witness: instantiation after three header bytes. -/
theorem c4_header_eof_none_witness :
    readPageHeader 420 3 [7, 7, 7] [[]] = some (.ok PageReadOutcome.noMorePages) ∧ 3 < 420 :=
  ⟨c4_header_eof_none 420 3 [7, 7, 7] [] (by decide), by decide⟩

/-! ### C5: the tag byte of a literal block -/

theorem litLen_le : ∀ (rest : List (List Nat)) (prev : List Nat) (cnt : Nat),
    cnt ≤ 0x7e → litLen prev rest cnt ≤ 0x7f := by
  intro rest
  induction rest with
  | nil => intro prev cnt h; simpa [litLen] using Nat.le_trans h (by decide)
  | cons c r ih =>
    intro prev cnt h
    simp only [litLen]
    split
    · omega
    · split
      · omega
      · exact ih c (cnt + 1) (by omega)

/-- C5 counterexample: the literal block chosen at the head of the chunk
list `[[5], [6], [6]]` covers `count = 1` chunk (inside the claimed range
`1 ≤ count ≤ 0x7F`), yet its tag byte `(!count).wrapping_add(2)` is
`0x00`, not in `0x81..=0xFF`. -/
theorem c5_counterexample :
    litLen [6] [[6]] 1 = 1 ∧
    encBlocks [[5], [6], [6]] = [0x00, 5, 0x01, 6] ∧
    litTag 1 = 0x00 ∧ ¬(0x81 ≤ litTag 1) := by
  refine ⟨rfl, ?_, rfl, by decide⟩
  simp [encBlocks, litLen, litTag, runLen]

/-- C5 (amended): a literal block covering `count` chunks has
`1 ≤ count ≤ 0x7F` and tag byte `(!count).wrapping_add(2) = (257 - count)
% 256`; the tag lies in `0x81..=0xFF` when `2 ≤ count`, while for
`count = 1` it wraps to `0x00` (which the decoder reads as a one-chunk
verbatim block, preserving the meaning). -/
theorem c5_literal_tag (c1 c2 : List Nat) (rest : List (List Nat)) (hne : c1 ≠ c2) :
    1 ≤ litLen c2 rest 1 ∧ litLen c2 rest 1 ≤ 0x7f ∧
    encBlocks (c1 :: c2 :: rest) =
      litTag (litLen c2 rest 1) ::
        (((c1 :: c2 :: rest).take (litLen c2 rest 1)).flatten ++
          encBlocks ((c1 :: c2 :: rest).drop (litLen c2 rest 1))) ∧
    (2 ≤ litLen c2 rest 1 →
      litTag (litLen c2 rest 1) = 257 - litLen c2 rest 1 ∧
      0x81 ≤ litTag (litLen c2 rest 1) ∧ litTag (litLen c2 rest 1) ≤ 0xff) ∧
    (litLen c2 rest 1 = 1 → litTag (litLen c2 rest 1) = 0) := by
  have h1 : 1 ≤ litLen c2 rest 1 := litLen_ge rest c2 1
  have h2 : litLen c2 rest 1 ≤ 0x7f := litLen_le rest c2 1 (by decide)
  refine ⟨h1, h2, ?_, ?_, ?_⟩
  · rw [encBlocks]
    simp [hne]
  · intro hge
    have : litTag (litLen c2 rest 1) = 257 - litLen c2 rest 1 := by
      unfold litTag
      omega
    refine ⟨this, ?_, ?_⟩ <;> omega
  · intro h
    rw [h]
    rfl

/-- C5 witness: a literal block with `count = 2` gets tag `0xFF`. -/
theorem c5_literal_tag_witness :
    encBlocks [[5], [6], [7], [7]] =
      litTag (litLen [6] [[7], [7]] 1) ::
        ((([[5], [6], [7], [7]] : List (List Nat)).take (litLen [6] [[7], [7]] 1)).flatten ++
          encBlocks (([[5], [6], [7], [7]] : List (List Nat)).drop (litLen [6] [[7], [7]] 1))) ∧
    litTag (litLen [6] [[7], [7]] 1) = 0xff ∧ 0x81 ≤ litTag (litLen [6] [[7], [7]] 1) := by
  have h := c5_literal_tag [5] [6] [[7], [7]] (by decide)
  have hcnt : litLen [6] [[7], [7]] 1 = 2 := rfl
  refine ⟨h.2.2.1, ?_, ?_⟩
  · rw [hcnt]; rfl
  · exact (h.2.2.2.1 (by rw [hcnt])).2.1

/-! ### C2: opcode bounds check -/

/-- C2: in the `BeginInlineBlock` state at cursor `start`, an opcode whose
decoded extent — `(C+1)*chunk_size` for `C ≤ 0x7F`, `(257-C)*chunk_size`
for `C ≥ 0x81` — exceeds `L - start` makes `poll_read` return an
`InvalidData` error, with the decoder (line buffer, state, line repeat,
remaining count) completely unchanged; only the opcode byte has been
consumed from the transport. -/
theorem c2_opcode_extent_bounds (d : Decoder) (c start bufLen fuel : Nat) (rest : List Nat)
    (hstate : d.state = .beginInlineBlock start)
    (hbuf : 0 < min d.bytesRemaining bufLen)
    (hne : c ≠ 0x80)
    (hext : d.lineBuffer.length - start <
      (if c ≤ 0x7f then (c + 1) * d.chunkSize else (257 - c) * d.chunkSize)) :
    pollRead d (c :: rest) bufLen fuel = some (.error .invalidData, d, rest) := by
  unfold pollRead
  rw [if_neg (by omega)]
  refine pollReadLoop_done ?_ fuel
  by_cases h7 : c ≤ 0x7f
  · rw [if_pos h7] at hext
    simp [pollReadStep, hstate, h7, hext]
  · rw [if_neg h7] at hext
    simp [pollReadStep, hstate, h7, hne, hext]

/-- C2 witness: chunk 2, line length 4, opcode `0x02` claims 6 bytes. -/
theorem c2_opcode_extent_bounds_witness :
    pollRead ⟨2, 4, 0, [9, 9, 9, 9], 0, .beginInlineBlock 0, 4⟩ [0x02, 1, 1] 4 5 =
      some (.error .invalidData, ⟨2, 4, 0, [9, 9, 9, 9], 0, .beginInlineBlock 0, 4⟩, [1, 1]) :=
  c2_opcode_extent_bounds ⟨2, 4, 0, [9, 9, 9, 9], 0, .beginInlineBlock 0, 4⟩ 0x02 0 4 5
    [1, 1] rfl (by decide) (by decide) (by decide)

/-! ### C3: the 0x80 fill opcode -/

/-- C3: reading opcode `0x80` in state `BeginInlineBlock start` (with
`start < L` and at least `L - start` bytes of page budget) delivers
exactly `L - start` bytes, all equal to `fill_byte`; afterwards the
decoder proceeds to the next line: with `line_repeat = 0` it returns to
`Begin` (a fresh line-repeat byte will be read next), and with
`line_repeat > 0` it decrements the counter and stands ready to re-emit
the buffered line from `UseBuffer {0, L}`. -/
theorem c3_fill_opcode (d : Decoder) (rest : List Nat) (start : Nat)
    (hstate : d.state = .beginInlineBlock start)
    (hstart : start < d.lineBuffer.length)
    (hrem : d.lineBuffer.length - start ≤ d.bytesRemaining) :
    pollRead d (0x80 :: rest) (d.lineBuffer.length - start) 6 =
      some (.ok (List.replicate (d.lineBuffer.length - start) d.fillByte),
        { d with
          lineBuffer := d.lineBuffer.take start ++
            List.replicate (d.lineBuffer.length - start) d.fillByte
          lineRepeat := if 0 < d.lineRepeat then d.lineRepeat - 1 else d.lineRepeat
          state := if 0 < d.lineRepeat then .useBuffer 0 d.lineBuffer.length else .begin
          bytesRemaining := d.bytesRemaining - (d.lineBuffer.length - start) },
        rest) := by
  have hs : start ≤ d.lineBuffer.length := Nat.le_of_lt hstart
  have hlen : (d.lineBuffer.take start).length = start := by
    simp [List.length_take, Nat.min_eq_left hs]
  have hfill :
      (d.lineBuffer.take start ++
        List.replicate (d.lineBuffer.length - start) d.fillByte).length =
      d.lineBuffer.length := by
    simp [hlen]
    omega
  have hdrop :
      (d.lineBuffer.take start ++
        List.replicate (d.lineBuffer.length - start) d.fillByte).drop start =
      List.replicate (d.lineBuffer.length - start) d.fillByte :=
    List.drop_left' hlen
  have h1 : pollReadStep d (0x80 :: rest) (d.lineBuffer.length - start) [] =
      .next
        { d with
          lineBuffer := d.lineBuffer.take start ++
            List.replicate (d.lineBuffer.length - start) d.fillByte
          state := .useBuffer start (d.lineBuffer.length - start) }
        rest (d.lineBuffer.length - start) [] := by
    simp [pollReadStep, hstate]
  unfold pollRead
  rw [if_neg (by omega), Nat.min_eq_right hrem, pollReadLoop_next 5 h1]
  by_cases hr : 0 < d.lineRepeat
  · have h2 : pollReadStep
        { d with
          lineBuffer := d.lineBuffer.take start ++
            List.replicate (d.lineBuffer.length - start) d.fillByte
          state := .useBuffer start (d.lineBuffer.length - start) }
        rest (d.lineBuffer.length - start) [] =
        .next
          { d with
            lineBuffer := d.lineBuffer.take start ++
              List.replicate (d.lineBuffer.length - start) d.fillByte
            lineRepeat := d.lineRepeat - 1
            state := .useBuffer 0 d.lineBuffer.length }
          rest 0 (List.replicate (d.lineBuffer.length - start) d.fillByte) := by
      have hsum : start + (d.lineBuffer.length - start) = d.lineBuffer.length := by omega
      simp [pollReadStep, hdrop, hfill, hsum, hr, List.take_replicate]
    rw [pollReadLoop_next 4 h2]
    have h3 : pollReadStep
        { d with
          lineBuffer := d.lineBuffer.take start ++
            List.replicate (d.lineBuffer.length - start) d.fillByte
          lineRepeat := d.lineRepeat - 1
          state := .useBuffer 0 d.lineBuffer.length }
        rest 0 (List.replicate (d.lineBuffer.length - start) d.fillByte) =
        .done (.ok (List.replicate (d.lineBuffer.length - start) d.fillByte),
          { d with
            lineBuffer := d.lineBuffer.take start ++
              List.replicate (d.lineBuffer.length - start) d.fillByte
            lineRepeat := d.lineRepeat - 1
            state := .useBuffer 0 d.lineBuffer.length
            bytesRemaining := d.bytesRemaining - (d.lineBuffer.length - start) },
          rest) := by
      have hLpos : ¬(d.lineBuffer.length = 0) := by omega
      simp [pollReadStep, hfill, hLpos]
    rw [pollReadLoop_done h3]
    rw [if_pos hr, if_pos hr]
  · have h2 : pollReadStep
        { d with
          lineBuffer := d.lineBuffer.take start ++
            List.replicate (d.lineBuffer.length - start) d.fillByte
          state := .useBuffer start (d.lineBuffer.length - start) }
        rest (d.lineBuffer.length - start) [] =
        .done (.ok (List.replicate (d.lineBuffer.length - start) d.fillByte),
          { d with
            lineBuffer := d.lineBuffer.take start ++
              List.replicate (d.lineBuffer.length - start) d.fillByte
            state := .begin
            bytesRemaining := d.bytesRemaining - (d.lineBuffer.length - start) },
          rest) := by
      have hsum : start + (d.lineBuffer.length - start) = d.lineBuffer.length := by omega
      have hpos : ¬(d.lineBuffer.length - start = 0) := by omega
      simp [pollReadStep, hdrop, hfill, hsum, hr, hpos, List.take_replicate]
    rw [pollReadLoop_done h2]
    rw [if_neg hr, if_neg hr]

/-- C3 witness: chunk 1, line length 3, fill byte `0xAA`, opcode `0x80`
at cursor 1 with one pending line repeat. -/
theorem c3_fill_opcode_witness :
    pollRead ⟨1, 3, 0xaa, [7, 7, 7], 2, .beginInlineBlock 1, 5⟩ [0x80, 9] 2 6 =
      some (.ok [0xaa, 0xaa],
        ⟨1, 3, 0xaa, [7, 0xaa, 0xaa], 1, .useBuffer 0 3, 3⟩, [9]) := by
  have h := c3_fill_opcode ⟨1, 3, 0xaa, [7, 7, 7], 2, .beginInlineBlock 1, 5⟩ [9] 1
    rfl (by decide) (by decide)
  simpa using h

/-! ### C10: byte budgets -/

/-- Well-formedness of a reachable decoder state: cursors stay inside the
line buffer (`start + remaining` regions in range; for a pending
repeat-single block, at least one chunk precedes or fills the block, so
the synthesis source `line_buffer[start-chunk..start]` is a full chunk). -/
def stateWF (k L : Nat) : DecState → Prop
  | .begin => True
  | .beginInlineBlock s => s ≤ L
  | .readInlineBlock rl s rem => s + rem + rl * k ≤ L ∧ (rl ≠ 0 → k ≤ s + rem)
  | .useBuffer s rem => s + rem ≤ L

/-- Well-formedness of a decoder. -/
def DecWF (d : Decoder) : Prop := stateWF d.chunkSize d.lineBuffer.length d.state

theorem pollReadStep_next_spec {d d1 : Decoder} {input i1 : List Nat} {bufSpace b1 : Nat}
    {acc a1 : List Nat} (hwf : DecWF d)
    (h : pollReadStep d input bufSpace acc = .next d1 i1 b1 a1) :
    DecWF d1 ∧ d1.bytesRemaining = d.bytesRemaining ∧
      ∃ t, a1 = acc ++ t ∧ t.length + b1 ≤ bufSpace := by
  unfold DecWF at hwf ⊢
  unfold pollReadStep at h
  cases hst : d.state with
  | begin =>
    rw [hst] at h
    cases input with
    | nil => exact absurd h (by simp)
    | cons c rest =>
      simp only [ReadLoopStep.next.injEq] at h
      obtain ⟨h1, h2, h3, h4⟩ := h
      subst h1 h2 h3 h4
      exact ⟨by simp [stateWF], rfl, [], by simp⟩
  | beginInlineBlock s =>
    rw [hst] at hwf
    simp only [stateWF] at hwf
    rw [hst] at h
    cases input with
    | nil => exact absurd h (by simp)
    | cons c rest =>
      simp only [] at h
      by_cases h7 : c ≤ 0x7f
      · rw [if_pos h7] at h
        by_cases hbad : d.lineBuffer.length - s < (c + 1) * d.chunkSize
        · rw [if_pos hbad] at h
          exact absurd h (by simp)
        · rw [if_neg hbad] at h
          simp only [ReadLoopStep.next.injEq] at h
          obtain ⟨h1, h2, h3, h4⟩ := h
          subst h1 h2 h3 h4
          refine ⟨?_, rfl, [], by simp⟩
          have hmul : (c + 1) * d.chunkSize = c * d.chunkSize + d.chunkSize :=
            Nat.succ_mul c d.chunkSize
          simp only [stateWF]
          constructor
          · omega
          · intro _
            omega
      · rw [if_neg h7] at h
        by_cases h80 : c = 0x80
        · rw [if_pos h80] at h
          simp only [ReadLoopStep.next.injEq] at h
          obtain ⟨h1, h2, h3, h4⟩ := h
          subst h1 h2 h3 h4
          refine ⟨?_, rfl, [], by simp⟩
          simp only [stateWF, List.length_append, List.length_take, List.length_replicate]
          omega
        · rw [if_neg h80] at h
          by_cases hbad : d.lineBuffer.length - s < (257 - c) * d.chunkSize
          · rw [if_pos hbad] at h
            exact absurd h (by simp)
          · rw [if_neg hbad] at h
            simp only [ReadLoopStep.next.injEq] at h
            obtain ⟨h1, h2, h3, h4⟩ := h
            subst h1 h2 h3 h4
            refine ⟨?_, rfl, [], by simp⟩
            simp only [stateWF]
            constructor
            · omega
            · intro hc
              exact absurd rfl hc
  | readInlineBlock rl s rem =>
    rw [hst] at hwf
    simp only [stateWF] at hwf
    rw [hst] at h
    simp only [] at h
    set n := min (min bufSpace rem) input.length with hn
    by_cases hn0 : n = 0
    · rw [if_pos hn0] at h
      exact absurd h (by simp)
    rw [if_neg hn0] at h
    by_cases hfin : rem - n = 0
    case neg =>
      rw [if_neg hfin] at h
      exact absurd h (by simp)
    rw [if_pos hfin] at h
    have hnle : n ≤ rem := by omega
    have hnbuf : n ≤ bufSpace := by omega
    have hsL : s ≤ d.lineBuffer.length := by omega
    have hsnL : s + n ≤ d.lineBuffer.length := by omega
    set lb1 := d.lineBuffer.take s ++ input.take n ++ d.lineBuffer.drop (s + n) with hlb1def
    have hlb1len : lb1.length = d.lineBuffer.length := by
      rw [hlb1def]
      simp only [List.length_append, List.length_take, List.length_drop]
      omega
    set lastChunk := (lb1.take (s + n)).drop (s + n - d.chunkSize) with hlast
    set lb2 := (if rl = 0 then lb1 else lb1.take (s + n) ++
      (List.replicate rl lastChunk).flatten ++
      lb1.drop (s + n + rl * d.chunkSize)) with hlb2def
    have hlb2len : lb2.length = d.lineBuffer.length := by
      rw [hlb2def]
      by_cases hrl : rl = 0
      · rw [if_pos hrl]
        exact hlb1len
      · rw [if_neg hrl]
        have hk : d.chunkSize ≤ s + rem := hwf.2 hrl
        have hrn : n = rem := by omega
        have hlastlen : lastChunk.length = d.chunkSize := by
          rw [hlast]
          simp only [List.length_drop, List.length_take, hlb1len]
          omega
        simp only [List.length_append, List.length_take, List.length_flatten,
          List.map_replicate, List.sum_replicate, smul_eq_mul, hlastlen,
          List.length_drop, hlb1len]
        omega
    simp only [ReadLoopStep.next.injEq] at h
    obtain ⟨h1, h2, h3, h4⟩ := h
    subst h1 h2 h3 h4
    have hreadle : min bufSpace (n + rl * d.chunkSize) ≤ n + rl * d.chunkSize := by omega
    refine ⟨?_, rfl, _, rfl, ?_⟩
    · simp only [stateWF, hlb2len]
      omega
    · have : ((lb2.drop s).take (min bufSpace (n + rl * d.chunkSize))).length ≤
          min bufSpace (n + rl * d.chunkSize) := by
        simp only [List.length_take, List.length_drop]
        omega
      omega
  | useBuffer s rem =>
    rw [hst] at hwf
    simp only [stateWF] at hwf
    rw [hst] at h
    simp only [] at h
    by_cases hfin : rem - min bufSpace rem = 0
    · rw [if_pos hfin] at h
      by_cases hline : s + min bufSpace rem = d.lineBuffer.length
      · rw [if_pos hline] at h
        by_cases hrep : 0 < d.lineRepeat
        · rw [if_pos hrep] at h
          simp only [ReadLoopStep.next.injEq] at h
          obtain ⟨h1, h2, h3, h4⟩ := h
          subst h1 h2 h3 h4
          refine ⟨by simp [stateWF], rfl, _, rfl, ?_⟩
          simp only [List.length_take, List.length_drop]
          omega
        · rw [if_neg hrep] at h
          by_cases hne : (acc ++ (d.lineBuffer.drop s).take (min bufSpace rem)).length ≠ 0
          · rw [if_pos hne] at h
            exact absurd h (by simp)
          · rw [if_neg hne] at h
            simp only [ReadLoopStep.next.injEq] at h
            obtain ⟨h1, h2, h3, h4⟩ := h
            subst h1 h2 h3 h4
            refine ⟨by simp [stateWF], rfl, _, rfl, ?_⟩
            simp only [List.length_take, List.length_drop]
            omega
      · rw [if_neg hline] at h
        by_cases hne : (acc ++ (d.lineBuffer.drop s).take (min bufSpace rem)).length ≠ 0
        · rw [if_pos hne] at h
          exact absurd h (by simp)
        · rw [if_neg hne] at h
          simp only [ReadLoopStep.next.injEq] at h
          obtain ⟨h1, h2, h3, h4⟩ := h
          subst h1 h2 h3 h4
          refine ⟨?_, rfl, _, rfl, ?_⟩
          · simp only [stateWF]
            omega
          · simp only [List.length_take, List.length_drop]
            omega
    · rw [if_neg hfin] at h
      exact absurd h (by simp)

theorem pollReadStep_done_ok_spec {d d1 : Decoder} {input i1 : List Nat} {bufSpace : Nat}
    {acc out : List Nat} (hwf : DecWF d)
    (h : pollReadStep d input bufSpace acc = .done (.ok out, d1, i1)) :
    (∃ t, out = acc ++ t ∧ t.length ≤ bufSpace) ∧
      d1.bytesRemaining = d.bytesRemaining - out.length := by
  unfold DecWF at hwf
  unfold pollReadStep at h
  cases hst : d.state with
  | begin =>
    rw [hst] at h
    cases input with
    | nil =>
      simp only [ReadLoopStep.done.injEq, Prod.mk.injEq, Except.ok.injEq] at h
      obtain ⟨h1, h2, h3⟩ := h
      subst h1 h2
      exact ⟨⟨[], by simp⟩, rfl⟩
    | cons c rest => exact absurd h (by simp)
  | beginInlineBlock s =>
    rw [hst] at h
    cases input with
    | nil => exact absurd h (by simp)
    | cons c rest =>
      simp only [] at h
      by_cases h7 : c ≤ 0x7f
      · rw [if_pos h7] at h
        split at h <;> exact absurd h (by simp)
      · rw [if_neg h7] at h
        by_cases h80 : c = 0x80
        · rw [if_pos h80] at h
          exact absurd h (by simp)
        · rw [if_neg h80] at h
          split at h <;> exact absurd h (by simp)
  | readInlineBlock rl s rem =>
    rw [hst] at hwf
    simp only [stateWF] at hwf
    rw [hst] at h
    simp only [] at h
    set n := min (min bufSpace rem) input.length with hn
    by_cases hn0 : n = 0
    · rw [if_pos hn0] at h
      exact absurd h (by simp)
    rw [if_neg hn0] at h
    by_cases hfin : rem - n = 0
    · rw [if_pos hfin] at h
      exact absurd h (by simp)
    rw [if_neg hfin] at h
    simp only [ReadLoopStep.done.injEq, Prod.mk.injEq, Except.ok.injEq] at h
    obtain ⟨h1, h2, h3⟩ := h
    subst h1 h2
    have hnbuf : n ≤ bufSpace := by omega
    refine ⟨⟨_, rfl, ?_⟩, ?_⟩
    · have : (((d.lineBuffer.take s ++ input.take n ++
          d.lineBuffer.drop (s + n)).drop s).take n).length ≤ n := by
        simp only [List.length_take, List.length_drop]
        omega
      omega
    · have hsL : s ≤ d.lineBuffer.length := by omega
      have hsnL : s + n ≤ d.lineBuffer.length := by omega
      have hnin : n ≤ input.length := by omega
      have hout : (((d.lineBuffer.take s ++ input.take n ++
          d.lineBuffer.drop (s + n)).drop s).take n).length = n := by
        simp only [List.length_take, List.length_drop, List.length_append,
          Nat.min_eq_left hnin]
        omega
      simp only [List.length_append, hout]
  | useBuffer s rem =>
    rw [hst] at hwf
    simp only [stateWF] at hwf
    rw [hst] at h
    simp only [] at h
    have houtlen : ((d.lineBuffer.drop s).take (min bufSpace rem)).length =
        min bufSpace rem := by
      simp only [List.length_take, List.length_drop]
      omega
    by_cases hfin : rem - min bufSpace rem = 0
    · rw [if_pos hfin] at h
      by_cases hline : s + min bufSpace rem = d.lineBuffer.length
      · rw [if_pos hline] at h
        by_cases hrep : 0 < d.lineRepeat
        · rw [if_pos hrep] at h
          exact absurd h (by simp)
        · rw [if_neg hrep] at h
          by_cases hne : (acc ++ (d.lineBuffer.drop s).take (min bufSpace rem)).length ≠ 0
          · rw [if_pos hne] at h
            simp only [ReadLoopStep.done.injEq, Prod.mk.injEq, Except.ok.injEq] at h
            obtain ⟨h1, h2, h3⟩ := h
            subst h1 h2
            refine ⟨⟨_, rfl, ?_⟩, rfl⟩
            rw [houtlen]
            omega
          · rw [if_neg hne] at h
            exact absurd h (by simp)
      · rw [if_neg hline] at h
        by_cases hne : (acc ++ (d.lineBuffer.drop s).take (min bufSpace rem)).length ≠ 0
        · rw [if_pos hne] at h
          simp only [ReadLoopStep.done.injEq, Prod.mk.injEq, Except.ok.injEq] at h
          obtain ⟨h1, h2, h3⟩ := h
          subst h1 h2
          refine ⟨⟨_, rfl, ?_⟩, rfl⟩
          rw [houtlen]
          omega
        · rw [if_neg hne] at h
          exact absurd h (by simp)
    · rw [if_neg hfin] at h
      simp only [ReadLoopStep.done.injEq, Prod.mk.injEq, Except.ok.injEq] at h
      obtain ⟨h1, h2, h3⟩ := h
      subst h1 h2
      refine ⟨⟨_, rfl, ?_⟩, rfl⟩
      rw [houtlen]
      omega

/-- Budget invariant of one full `poll_read` loop run: on a successful
return the delivered bytes extend `acc` by at most `bufSpace` bytes and
`bytes_remaining` drops by exactly the delivered count. -/
theorem pollReadLoop_budget : ∀ (fuel : Nat) (d : Decoder) (input : List Nat)
    (bufSpace : Nat) (acc out : List Nat) (d1 : Decoder) (input1 : List Nat),
    DecWF d →
    pollReadLoop fuel d input bufSpace acc = some (.ok out, d1, input1) →
    (∃ t, out = acc ++ t ∧ t.length ≤ bufSpace) ∧
      d1.bytesRemaining = d.bytesRemaining - out.length := by
  intro fuel
  induction fuel with
  | zero =>
    intro d input bufSpace acc out d1 input1 hwf h
    rw [pollReadLoop] at h
    cases hstep : pollReadStep d input bufSpace acc with
    | done r =>
      rw [hstep] at h
      simp only [Option.some.injEq] at h
      rw [h] at hstep
      exact pollReadStep_done_ok_spec hwf hstep
    | next d2 i2 b2 a2 =>
      rw [hstep] at h
      exact absurd h (by simp)
  | succ f ih =>
    intro d input bufSpace acc out d1 input1 hwf h
    rw [pollReadLoop] at h
    cases hstep : pollReadStep d input bufSpace acc with
    | done r =>
      rw [hstep] at h
      simp only [Option.some.injEq] at h
      rw [h] at hstep
      exact pollReadStep_done_ok_spec hwf hstep
    | next d2 i2 b2 a2 =>
      rw [hstep] at h
      obtain ⟨hwf2, hB2, t, ht, htb⟩ := pollReadStep_next_spec hwf hstep
      obtain ⟨⟨t2, ht2, ht2b⟩, hB1⟩ := ih d2 i2 b2 a2 out d1 input1 hwf2 h
      subst ht ht2
      refine ⟨⟨t ++ t2, by simp, ?_⟩, ?_⟩
      · simp only [List.length_append]
        omega
      · rw [hB1, hB2]

theorem diffPos_lt : ∀ (a b : List Nat) (i : Nat), diffPos a b = some i → i < a.length := by
  intro a
  induction a with
  | nil => intro b i h; simp [diffPos] at h
  | cons x xs ih =>
    intro b i h
    cases b with
    | nil => simp [diffPos] at h
    | cons y ys =>
      simp only [diffPos] at h
      split at h
      · simp only [Option.some.injEq] at h
        subst h
        simp
      · simp only [Option.map_eq_some'] at h
        obtain ⟨j, hj, rfl⟩ := h
        have := ih ys j hj
        simp
        omega

theorem encStep_done_spec {e : Encoder} {buf out : List Nat} {total : Nat}
    {r : List Nat × Encoder × Nat} (h : encStep e buf out total = .done r) :
    buf = [] ∧ r = (out, e, total) := by
  cases buf with
  | nil =>
    simp only [encStep, List.isEmpty_nil, if_pos, WriteLoopStep.done.injEq] at h
    exact ⟨rfl, h.symm⟩
  | cons b bs =>
    simp only [encStep, List.isEmpty_cons, Bool.false_eq_true, if_false] at h
    split at h
    · split_ifs at h <;> simp at h
    · split at h
      · simp at h
      · split_ifs at h <;> simp at h

theorem encStep_next_spec {e e1 : Encoder} {buf b1 out o1 : List Nat} {total t1 : Nat}
    (h : encStep e buf out total = .next e1 b1 o1 t1) :
    t1 + b1.length ≤ total + buf.length ∧ e1.bytesRemaining = e.bytesRemaining := by
  cases buf with
  | nil => simp [encStep] at h
  | cons b bs =>
    simp only [encStep, List.isEmpty_cons, Bool.false_eq_true, if_false] at h
    split at h
    · split_ifs at h <;>
        (simp only [WriteLoopStep.next.injEq] at h
         obtain ⟨h1, h2, h3, h4⟩ := h
         subst h1 h2 h3 h4
         refine ⟨?_, rfl⟩
         simp only [List.length_drop, List.length_cons]
         omega)
    · split at h
      · rename_i dp hdp
        simp only [WriteLoopStep.next.injEq] at h
        obtain ⟨h1, h2, h3, h4⟩ := h
        subst h1 h2 h3 h4
        have hlt := diffPos_lt _ _ _ hdp
        simp only [List.length_take, List.length_cons] at hlt
        refine ⟨?_, rfl⟩
        simp only [List.length_drop, List.length_cons]
        omega
      · split_ifs at h <;>
          (simp only [WriteLoopStep.next.injEq] at h
           obtain ⟨h1, h2, h3, h4⟩ := h
           subst h1 h2 h3 h4
           refine ⟨?_, rfl⟩
           simp only [List.length_drop, List.length_cons]
           omega)

/-- Budget invariant of the encoder loop: `total_write` grows by at most
the number of buffered bytes and `bytes_remaining` is untouched inside
the loop. -/
theorem encLoop_budget : ∀ (fuel : Nat) (e : Encoder) (buf out o1 : List Nat)
    (total t1 : Nat) (e1 : Encoder),
    encLoop fuel e buf out total = some (o1, e1, t1) →
    t1 ≤ total + buf.length ∧ e1.bytesRemaining = e.bytesRemaining := by
  intro fuel
  induction fuel with
  | zero =>
    intro e buf out o1 total t1 e1 h
    rw [encLoop] at h
    cases hstep : encStep e buf out total with
    | done r =>
      rw [hstep] at h
      simp only [Option.some.injEq] at h
      subst h
      obtain ⟨hb, hr⟩ := encStep_done_spec hstep
      subst hb
      simp only [Prod.mk.injEq] at hr
      obtain ⟨h1, h2, h3⟩ := hr
      subst h1 h2 h3
      simp
    | next e2 b2 o2 t2 =>
      rw [hstep] at h
      exact absurd h (by simp)
  | succ f ih =>
    intro e buf out o1 total t1 e1 h
    rw [encLoop] at h
    cases hstep : encStep e buf out total with
    | done r =>
      rw [hstep] at h
      simp only [Option.some.injEq] at h
      subst h
      obtain ⟨hb, hr⟩ := encStep_done_spec hstep
      subst hb
      simp only [Prod.mk.injEq] at hr
      obtain ⟨h1, h2, h3⟩ := hr
      subst h1 h2 h3
      simp
    | next e2 b2 o2 t2 =>
      rw [hstep] at h
      obtain ⟨hle, hB⟩ := encStep_next_spec hstep
      obtain ⟨hle2, hB2⟩ := ih e2 b2 o2 o1 t2 t1 e1 h
      exact ⟨by omega, by rw [hB2, hB]⟩

/-- C10: byte budgets of the three codecs.  Every successful
`poll_read`/`poll_write` call returns `n ≤ min(buf.len(), bytes_remaining)`
and decreases `bytes_remaining` by exactly `n`; once `bytes_remaining = 0`
the call returns `Ready(Ok(0))` at once — the compressed and uncompressed
decoders leave the transport untouched, and the encoder forwards nothing
to the sink, silently discarding bytes written beyond the page total. -/
theorem c10_byte_budgets :
    (∀ (d : Decoder) (input : List Nat) (bufLen fuel : Nat) (out : List Nat)
      (d1 : Decoder) (input1 : List Nat), DecWF d →
      pollRead d input bufLen fuel = some (.ok out, d1, input1) →
      out.length ≤ min bufLen d.bytesRemaining ∧
      d.bytesRemaining = d1.bytesRemaining + out.length ∧
      (d.bytesRemaining = 0 → out = [] ∧ d1 = d ∧ input1 = input)) ∧
    (∀ (ud : UncompressedDecoder) (input : List Nat) (bufLen : Nat),
      (ud.pollRead input bufLen).1.length ≤ min bufLen ud.bytesRemaining ∧
      ud.bytesRemaining = (ud.pollRead input bufLen).2.1.bytesRemaining +
        (ud.pollRead input bufLen).1.length ∧
      (ud.bytesRemaining = 0 → ud.pollRead input bufLen = ([], ud, input))) ∧
    (∀ (e : Encoder) (buf : List Nat) (fuel : Nat) (out : List Nat) (e1 : Encoder) (n : Nat),
      pollWrite e buf fuel = some (out, e1, n) →
      n ≤ min buf.length e.bytesRemaining ∧
      e.bytesRemaining = e1.bytesRemaining + n ∧
      (e.bytesRemaining = 0 → n = 0 ∧ out = [])) := by
  refine ⟨?_, ?_, ?_⟩
  · intro d input bufLen fuel out d1 input1 hwf h
    unfold pollRead at h
    by_cases h0 : min d.bytesRemaining bufLen = 0
    · rw [if_pos h0] at h
      simp only [Option.some.injEq, Prod.mk.injEq, Except.ok.injEq] at h
      obtain ⟨h1, h2, h3⟩ := h
      subst h1 h2 h3
      exact ⟨by simp, by simp, fun _ => ⟨rfl, rfl, rfl⟩⟩
    · rw [if_neg h0] at h
      obtain ⟨⟨t, ht, htb⟩, hB⟩ := pollReadLoop_budget fuel d input _ [] out d1 input1 hwf h
      rw [List.nil_append] at ht
      subst ht
      refine ⟨by omega, by omega, ?_⟩
      intro hz
      omega
  · intro ud input bufLen
    unfold UncompressedDecoder.pollRead
    by_cases h0 : min ud.bytesRemaining bufLen = 0
    · rw [if_pos h0]
      exact ⟨by simp, by simpa using by omega, fun _ => rfl⟩
    · rw [if_neg h0]
      simp only [List.length_take]
      refine ⟨by omega, by omega, ?_⟩
      intro hz
      omega
  · intro e buf fuel out e1 n h
    simp only [pollWrite] at h
    cases henc : encLoop fuel e (buf.take (min e.bytesRemaining buf.length)) [] 0 with
    | none =>
      rw [henc] at h
      exact absurd h (by simp)
    | some r =>
      obtain ⟨o2, e2, t2⟩ := r
      rw [henc] at h
      simp only [Option.some.injEq, Prod.mk.injEq] at h
      obtain ⟨h1, h2, h3⟩ := h
      subst h1 h3
      obtain ⟨hle, hB⟩ := encLoop_budget fuel e _ [] o2 0 t2 e2 henc
      simp only [List.length_take, List.length_nil] at hle
      have hn : t2 ≤ min e.bytesRemaining buf.length := by omega
      refine ⟨by omega, ?_, ?_⟩
      · rw [← h2]
        simp only [hB]
        omega
      · intro hz
        have hnil : buf.take (min e.bytesRemaining buf.length) = [] := by
          rw [hz]
          simp
        rw [hnil] at henc
        rw [encLoop_done (encStep_nil e [] 0) fuel] at henc
        simp only [Option.some.injEq, Prod.mk.injEq] at henc
        obtain ⟨ho, he2, ht⟩ := henc
        constructor
        · omega
        · rw [← ho]

/-- C10 witness: one concrete compressed-decoder read and one concrete
encoder write, pushed through the theorem. -/
theorem c10_byte_budgets_witness :
    ([9, 9, 9] : List Nat).length ≤ min 5 (3 : Nat) ∧
    (3 : Nat) = 0 + ([9, 9, 9] : List Nat).length ∧
    (1 : Nat) ≤ min ([7] : List Nat).length 8 ∧ (8 : Nat) = 7 + 1 := by
  have hd : pollRead ⟨1, 1, 0, [5], 0, .begin, 3⟩ [2, 0, 9] 5 20 =
      some (.ok [9, 9, 9], ⟨1, 1, 0, [9], 0, .begin, 0⟩, []) := rfl
  have he : pollWrite ⟨1, 4, 8, [9, 9, 9, 9], none, 0⟩ [7] 4 =
      some ([], ⟨1, 4, 7, [7, 9, 9, 9], none, 1⟩, 1) := rfl
  obtain ⟨hA, hB, _⟩ := c10_byte_budgets.1 ⟨1, 1, 0, [5], 0, .begin, 3⟩ [2, 0, 9] 5 20
    [9, 9, 9] ⟨1, 1, 0, [9], 0, .begin, 0⟩ [] trivial hd
  obtain ⟨hC, hD, _⟩ := c10_byte_budgets.2.2 ⟨1, 4, 8, [9, 9, 9, 9], none, 0⟩ [7] 4
    [] ⟨1, 4, 7, [7, 9, 9, 9], none, 1⟩ 1 he
  exact ⟨hA, hB, hC, hD⟩

/-! ### Structure of the encoder output

`encGroups` is the compositional description of `poll_write`'s output when
an entire page is written in one call: the stream of line groups, where the
optional state `some (r, stored)` is the pending candidate line `stored`
already matched `r + 1` times (`line_repeat = Some(r)`). -/

/-- Line-group structure of the encoder output (derived below from
`encLoop`, not assumed). -/
def encGroups (k : Nat) : Option (Nat × List Nat) → List (List Nat) → List Nat
  | _, [] => []
  | none, l :: rest =>
    if rest = [] then encLine k 0 l
    else encGroups k (some (0, l)) rest
  | some (r, stored), l :: rest =>
    if l = stored then
      if r + 1 = 255 ∨ rest = [] then encLine k (r + 1) stored ++ encGroups k none rest
      else encGroups k (some (r + 1, stored)) rest
    else
      encLine k r stored ++ encGroups k none (l :: rest)
termination_by st lines => 2 * lines.length + (if st.isSome then 1 else 0)
decreasing_by
  all_goals simp
  all_goals omega

theorem chunksOf_cons (k a : Nat) (l : List Nat) (hk : 1 ≤ k) :
    chunksOf k (a :: l) = (a :: l).take k :: chunksOf k ((a :: l).drop k) := by
  obtain ⟨j, rfl⟩ : ∃ j, k = j + 1 := ⟨k - 1, by omega⟩
  rw [chunksOf]
  simp

theorem chunksOf_flatten (k : Nat) (hk : 1 ≤ k) :
    ∀ (n : Nat) (l : List Nat), l.length ≤ n → (chunksOf k l).flatten = l := by
  intro n
  induction n with
  | zero =>
    intro l hl
    cases l with
    | nil => simp [chunksOf]
    | cons a l' => simp at hl
  | succ n ih =>
    intro l hl
    cases l with
    | nil => simp [chunksOf]
    | cons a l' =>
      rw [chunksOf_cons k a l' hk]
      rw [List.flatten_cons]
      rw [ih ((a :: l').drop k) (by simp only [List.length_drop]; omega)]
      exact List.take_append_drop k (a :: l')

theorem chunksOf_length_mem (k : Nat) (hk : 1 ≤ k) :
    ∀ (n : Nat) (l : List Nat), l.length ≤ n → k ∣ l.length →
      ∀ c ∈ chunksOf k l, c.length = k := by
  intro n
  induction n with
  | zero =>
    intro l hl _ c hc
    cases l with
    | nil => simp [chunksOf] at hc
    | cons a l' => simp at hl
  | succ n ih =>
    intro l hl hdvd c hc
    cases l with
    | nil => simp [chunksOf] at hc
    | cons a l' =>
      rw [chunksOf_cons k a l' hk] at hc
      have hkle : k ≤ (a :: l').length := Nat.le_of_dvd (by simp) hdvd
      rcases List.mem_cons.mp hc with hc1 | hc2
      · subst hc1
        simp only [List.length_take]
        omega
      · refine ih ((a :: l').drop k) (by simp only [List.length_drop]; omega) ?_ c hc2
        obtain ⟨m, hm⟩ := hdvd
        have : ((a :: l').drop k).length = (a :: l').length - k := by simp
        rw [this, hm]
        cases m with
        | zero => omega
        | succ m' =>
          refine ⟨m', ?_⟩
          have hmul : k * (m' + 1) = k * m' + k := by ring
          omega

theorem chunksOf_ne_nil (k a : Nat) (l : List Nat) (hk : 1 ≤ k) :
    chunksOf k (a :: l) ≠ [] := by
  rw [chunksOf_cons k a l hk]
  simp

theorem diffPos_refl : ∀ l : List Nat, diffPos l l = none := by
  intro l
  induction l with
  | nil => rfl
  | cons a l' ih => simp [diffPos, ih]

theorem diffPos_eq_none : ∀ a b : List Nat, a.length = b.length →
    diffPos a b = none → a = b := by
  intro a
  induction a with
  | nil =>
    intro b hlen _
    cases b with
    | nil => rfl
    | cons y ys => simp at hlen
  | cons x xs ih =>
    intro b hlen h
    cases b with
    | nil => simp at hlen
    | cons y ys =>
      simp only [diffPos] at h
      split at h
      · exact absurd h (by simp)
      · rename_i hxy
        simp only [ne_eq, Decidable.not_not] at hxy
        simp only [Option.map_eq_none'] at h
        rw [hxy, ih ys (by simpa using hlen) h]

theorem diffPos_take_eq : ∀ a b : List Nat, ∀ i, diffPos a b = some i →
    a.take i = b.take i := by
  intro a
  induction a with
  | nil => intro b i h; simp [diffPos] at h
  | cons x xs ih =>
    intro b i h
    cases b with
    | nil => simp [diffPos] at h
    | cons y ys =>
      simp only [diffPos] at h
      split at h
      · simp only [Option.some.injEq] at h
        subst h
        simp
      · rename_i hxy
        simp only [ne_eq, Decidable.not_not] at hxy
        simp only [Option.map_eq_some'] at h
        obtain ⟨j, hj, rfl⟩ := h
        simp only [List.take_succ_cons, hxy, ih ys j hj]

/-- Writing all the page's lines in one `poll_write` call emits exactly the
line-group stream `encGroups`: the loop processes one line (or one
mismatch + one refill) per iteration, holding back each completed line as
a repeat candidate until a mismatch, the 255-repeat cap, or the end of the
declared page total forces a flush. -/
theorem encLoop_lines (k bpl : Nat) :
    ∀ (lines : List (List Nat)) (L fuel : Nat) (lb : List Nat) (lr : Option Nat)
      (B total : Nat) (out : List Nat),
    lb.length = L → 1 ≤ L →
    (∀ l ∈ lines, l.length = L) →
    B = total + lines.flatten.length →
    2 * lines.length ≤ fuel →
    ∃ e1, encLoop fuel ⟨k, bpl, B, lb, lr, 0⟩ lines.flatten out total =
      some (out ++ encGroups k (lr.map fun r => (r, lb)) lines, e1,
        total + lines.flatten.length) := by
  intro lines
  induction lines with
  | nil =>
    intro L fuel lb lr B total out hlb hL hall hB hfuel
    refine ⟨⟨k, bpl, B, lb, lr, 0⟩, ?_⟩
    rw [List.flatten_nil, encLoop_done (encStep_nil _ _ _) fuel]
    cases lr <;> simp [encGroups]
  | cons l rest ih =>
    intro L fuel lb lr B total out hlb hL hall hB hfuel
    have hlL : l.length = L := hall l (by simp)
    have hrest : ∀ l2 ∈ rest, l2.length = L := fun l2 h => hall l2 (by simp [h])
    have hlne : l ≠ [] := by
      intro hc
      rw [hc] at hlL
      simp at hlL
      omega
    have hfuel2 : 2 * rest.length + 2 ≤ fuel := by
      simp only [List.length_cons] at hfuel
      omega
    have hBf : B = total + (l.length + rest.flatten.length) := by
      simpa using hB
    have hrflenpos : rest ≠ [] → L ≤ rest.flatten.length := by
      intro h
      cases rest with
      | nil => exact absurd rfl h
      | cons r0 rs =>
        have : r0.length = L := hrest r0 (by simp)
        simp only [List.flatten_cons, List.length_append]
        omega
    obtain ⟨f1, rfl⟩ : ∃ f1, fuel = f1 + 1 := ⟨fuel - 1, by omega⟩
    have hbufne : (l ++ rest.flatten).isEmpty = false := by
      cases l with
      | nil => exact absurd rfl hlne
      | cons a as => rfl
    have htakel : (l ++ rest.flatten).take l.length = l := List.take_left l rest.flatten
    have hdropl : (l ++ rest.flatten).drop l.length = rest.flatten := List.drop_left l rest.flatten
    have hminl : min (l ++ rest.flatten).length (lb.length - 0) = l.length := by
      simp only [List.length_append]
      omega
    have hlbtake : lb.take (0 : Nat) = [] := List.take_zero lb
    have hlbdrop : lb.drop (0 + l.length) = [] := by
      apply List.drop_of_length_le
      omega
    rw [List.flatten_cons]
    cases lr with
    | none =>
      by_cases hr0 : rest = []
      · subst hr0
        have hstep : encStep ⟨k, bpl, B, lb, none, 0⟩ (l ++ List.flatten []) out total =
            .next ⟨k, bpl, B, l, none, 0⟩ [] (out ++ encLine k 0 l) (total + l.length) := by
          simp only [encStep, hbufne, Bool.false_eq_true, if_false, hminl,
            hlbtake, htakel, hdropl, hlbdrop, List.nil_append, List.append_nil]
          rw [if_pos (by omega), if_pos (by simp at hBf; omega)]
          simp only [List.flatten_nil]
        rw [encLoop_next f1 hstep,
          encLoop_done (encStep_nil ⟨k, bpl, B, l, none, 0⟩ _ _) f1]
        refine ⟨⟨k, bpl, B, l, none, 0⟩, ?_⟩
        simp only [Option.map]
        rw [show encGroups k none [l] = encLine k 0 l from by rw [encGroups]; simp]
        simp
      · have hstep : encStep ⟨k, bpl, B, lb, none, 0⟩ (l ++ rest.flatten) out total =
            .next ⟨k, bpl, B, l, some 0, 0⟩ rest.flatten out (total + l.length) := by
          simp only [encStep, hbufne, Bool.false_eq_true, if_false, hminl,
            hlbtake, htakel, hdropl, hlbdrop, List.nil_append, List.append_nil]
          rw [if_pos (by omega), if_neg (by have := hrflenpos hr0; omega)]
        rw [encLoop_next f1 hstep]
        obtain ⟨e1, he1⟩ := ih L f1 l (some 0) B (total + l.length) out hlL hL hrest
          (by omega) (by omega)
        refine ⟨e1, ?_⟩
        rw [he1]
        simp only [Option.map]
        rw [show encGroups k none (l :: rest) = encGroups k (some (0, l)) rest from by
          rw [encGroups]; rw [if_neg hr0]]
        simp only [List.length_append, Nat.add_assoc]
    | some r =>
      have hlbtakeL : lb.take l.length = lb := by
        apply List.take_of_length_le
        omega
      by_cases heq : l = lb
      · have hdiff : diffPos ((l ++ rest.flatten).take l.length)
            ((lb.drop 0).take l.length) = none := by
          rw [htakel, List.drop_zero, hlbtakeL, heq]
          exact diffPos_refl lb
        by_cases hflush : r + 1 = 255 ∨ rest = []
        · have hstep : encStep ⟨k, bpl, B, lb, some r, 0⟩ (l ++ rest.flatten) out total =
              .next ⟨k, bpl, B, lb, none, 0⟩ rest.flatten
                (out ++ encLine k (r + 1) lb) (total + l.length) := by
            simp only [encStep, hbufne, Bool.false_eq_true, if_false, hminl, hdiff,
              hdropl]
            rw [if_pos (by omega), if_pos ?_]
            rcases hflush with h255 | hre
            · exact Or.inl h255
            · refine Or.inr ?_
              rw [hre] at hBf
              simp at hBf
              omega
          rw [encLoop_next f1 hstep]
          obtain ⟨e1, he1⟩ := ih L f1 lb none B (total + l.length)
            (out ++ encLine k (r + 1) lb) hlb hL hrest (by omega) (by omega)
          refine ⟨e1, ?_⟩
          rw [he1]
          simp only [Option.map]
          rw [show encGroups k (some (r, lb)) (l :: rest) =
              encLine k (r + 1) lb ++ encGroups k none rest from by
            rw [encGroups]; rw [if_pos heq, if_pos hflush]]
          simp only [List.length_append, Nat.add_assoc, List.append_assoc]
        · push_neg at hflush
          obtain ⟨h255, hre⟩ := hflush
          have hstep : encStep ⟨k, bpl, B, lb, some r, 0⟩ (l ++ rest.flatten) out total =
              .next ⟨k, bpl, B, lb, some (r + 1), 0⟩ rest.flatten out (total + l.length) := by
            simp only [encStep, hbufne, Bool.false_eq_true, if_false, hminl, hdiff,
              hdropl]
            rw [if_pos (by omega), if_neg ?_]
            push_neg
            exact ⟨h255, by have := hrflenpos hre; omega⟩
          rw [encLoop_next f1 hstep]
          obtain ⟨e1, he1⟩ := ih L f1 lb (some (r + 1)) B (total + l.length) out
            hlb hL hrest (by omega) (by omega)
          refine ⟨e1, ?_⟩
          rw [he1]
          simp only [Option.map]
          rw [show encGroups k (some (r, lb)) (l :: rest) =
              encGroups k (some (r + 1, lb)) rest from by
            rw [encGroups]
            rw [if_pos heq, if_neg (by push_neg; exact ⟨h255, hre⟩)]]
          simp only [List.length_append, Nat.add_assoc]
      · -- mismatch: flush the candidate with count r, then refill the line
        -- from the first differing byte
        have hdiffs : ∃ dp, diffPos l lb = some dp := by
          cases hd : diffPos l lb with
          | none => exact absurd (diffPos_eq_none l lb (by omega) hd) heq
          | some dp => exact ⟨dp, rfl⟩
        obtain ⟨dp, hdp⟩ := hdiffs
        have hdplt : dp < L := by
          have := diffPos_lt l lb dp hdp
          omega
        have hdiff : diffPos ((l ++ rest.flatten).take l.length)
            ((lb.drop 0).take l.length) = some dp := by
          rw [htakel, List.drop_zero, hlbtakeL]
          exact hdp
        have hstep : encStep ⟨k, bpl, B, lb, some r, 0⟩ (l ++ rest.flatten) out total =
            .next ⟨k, bpl, B, lb, none, 0 + dp⟩ (l.drop dp ++ rest.flatten)
              (out ++ encLine k r lb) (total + dp) := by
          simp only [encStep, hbufne, Bool.false_eq_true, if_false, hminl, hdiff]
          rw [List.drop_append_eq_append_drop, Nat.sub_eq_zero_of_le (by omega),
            List.drop_zero]
        rw [encLoop_next f1 hstep]
        obtain ⟨f2, rfl⟩ : ∃ f2, f1 = f2 + 1 := ⟨f1 - 1, by omega⟩
        have hldne : (l.drop dp ++ rest.flatten).isEmpty = false := by
          have hdl : (l.drop dp).length = L - dp := by simp [hlL]
          cases hld : l.drop dp with
          | nil =>
            rw [hld] at hdl
            simp at hdl
            omega
          | cons a as => rfl
        have hmind : min (l.drop dp ++ rest.flatten).length (lb.length - (0 + dp)) =
            l.length - dp := by
          simp only [List.length_append, List.length_drop]
          omega
        have htaked : (l.drop dp ++ rest.flatten).take (l.length - dp) = l.drop dp := by
          apply List.take_left'
          simp
        have hdropd : (l.drop dp ++ rest.flatten).drop (l.length - dp) = rest.flatten := by
          apply List.drop_left'
          simp
        have hlbdropd : lb.drop (0 + dp + (l.length - dp)) = [] := by
          apply List.drop_of_length_le
          omega
        have hlbtakedp : lb.take (0 + dp) = l.take dp := by
          rw [Nat.zero_add]
          exact (diffPos_take_eq l lb dp hdp).symm
        have hfill : l.take dp ++ (l.drop dp ++ []) = l := by
          rw [List.append_nil]
          exact List.take_append_drop dp l
        have hposfull : 0 + dp + (l.length - dp) = lb.length := by omega
        by_cases hr0 : rest = []
        · subst hr0
          have hstep2 : encStep ⟨k, bpl, B, lb, none, 0 + dp⟩
              (l.drop dp ++ List.flatten []) (out ++ encLine k r lb) (total + dp) =
              .next ⟨k, bpl, B, l, none, 0⟩ []
                (out ++ encLine k r lb ++ encLine k 0 l)
                (total + dp + (l.length - dp)) := by
            simp only [encStep, hldne, Bool.false_eq_true, if_false, hmind,
              htaked, hdropd, hlbdropd, hlbtakedp, hfill, List.append_assoc]
            rw [if_pos hposfull, if_pos (by simp at hBf; omega)]
            simp only [List.flatten_nil]
          rw [encLoop_next f2 hstep2,
            encLoop_done (encStep_nil ⟨k, bpl, B, l, none, 0⟩ _ _) f2]
          refine ⟨⟨k, bpl, B, l, none, 0⟩, ?_⟩
          rw [show total + dp + (l.length - dp) = total + l.length from by omega]
          simp only [Option.map]
          rw [show encGroups k (some (r, lb)) [l] =
              encLine k r lb ++ encLine k 0 l from by
            rw [encGroups]
            rw [if_neg heq]
            rw [encGroups]
            simp]
          simp [List.append_assoc]
        · have hstep2 : encStep ⟨k, bpl, B, lb, none, 0 + dp⟩
              (l.drop dp ++ rest.flatten) (out ++ encLine k r lb) (total + dp) =
              .next ⟨k, bpl, B, l, some 0, 0⟩ rest.flatten
                (out ++ encLine k r lb) (total + dp + (l.length - dp)) := by
            simp only [encStep, hldne, Bool.false_eq_true, if_false, hmind,
              htaked, hdropd, hlbdropd, hlbtakedp, hfill, List.append_assoc]
            rw [if_pos hposfull, if_neg (by have := hrflenpos hr0; omega)]
          rw [encLoop_next f2 hstep2]
          have htd : total + dp + (l.length - dp) = total + l.length := by omega
          rw [htd]
          obtain ⟨e1, he1⟩ := ih L f2 l (some 0) B (total + l.length)
            (out ++ encLine k r lb) hlL hL hrest (by omega) (by omega)
          refine ⟨e1, ?_⟩
          rw [he1]
          simp only [Option.map]
          rw [show encGroups k (some (r, lb)) (l :: rest) =
              encLine k r lb ++ encGroups k (some (0, l)) rest from by
            rw [encGroups]
            rw [if_neg heq]
            rw [encGroups]
            rw [if_neg hr0]]
          simp only [List.append_assoc, List.length_append, Nat.add_assoc]

theorem length_le_flatten_length :
    ∀ (lines : List (List Nat)), (∀ l ∈ lines, 1 ≤ l.length) →
      lines.length ≤ lines.flatten.length := by
  intro lines
  induction lines with
  | nil => simp
  | cons l rest ih =>
    intro h
    have h1 : 1 ≤ l.length := h l (by simp)
    have h2 := ih (fun l2 hl2 => h l2 (by simp [hl2]))
    simp only [List.length_cons, List.flatten_cons, List.length_append]
    omega

/-- One full-page `poll_write` through a fresh encoder emits exactly the
`encGroups` stream over the page's lines. -/
theorem encodeData_eq_encGroups (k bpl : Nat) (data : List Nat)
    (hk : 1 ≤ k) (hbpl : 0 < bpl) (hdvd : bpl % k = 0) (hlen : data.length % bpl = 0) :
    encodeData k bpl data = some (encGroups k none (chunksOf bpl data)) := by
  rcases data with _ | ⟨a, data'⟩
  · have h1 : Encoder.new k bpl (0 : Nat) =
        .ok ⟨k, bpl, 0, [], none, 0⟩ := by
      rw [Encoder.new]
      rw [if_neg (by push_neg; intro _; constructor <;> omega)]
      rw [if_neg (by push_neg; intro h; simp at h)]
      simp
    rw [show chunksOf bpl [] = [] from by simp [chunksOf]]
    rw [show encGroups k none [] = [] from by rw [encGroups]]
    simp only [encodeData, List.length_nil, h1]
    unfold pollWrite
    simp only [Nat.min_self, List.take_nil]
    rw [encLoop_done (encStep_nil ⟨k, bpl, 0, [], none, 0⟩ [] 0) (2 * 0 + 4)]
  · set data := a :: data' with hdata
    have hdne : data ≠ [] := by simp [hdata]
    have hlpos : 0 < data.length := by simp [hdata]
    have hbpl_le : bpl ≤ data.length := by
      rcases Nat.lt_or_ge data.length bpl with h | h
      · have h0 : data.length % bpl = data.length := Nat.mod_eq_of_lt h
        omega
      · exact h
    have h1 : Encoder.new k bpl data.length =
        .ok ⟨k, bpl, data.length, List.replicate (min bpl data.length) 0, none, 0⟩ := by
      rw [Encoder.new]
      rw [if_neg (by push_neg; intro _; constructor <;> omega)]
      rw [if_neg (by push_neg; intro _; constructor <;> omega)]
    have hmin : min bpl data.length = bpl := by omega
    have hflat : (chunksOf bpl data).flatten = data :=
      chunksOf_flatten bpl (by omega) data.length data le_rfl
    have hmem : ∀ c ∈ chunksOf bpl data, c.length = bpl :=
      chunksOf_length_mem bpl (by omega) data.length data le_rfl
        (Nat.dvd_of_mod_eq_zero hlen)
    have hlinelen : (chunksOf bpl data).length ≤ data.length := by
      have := length_le_flatten_length (chunksOf bpl data)
        (fun l hl => by rw [hmem l hl]; omega)
      rw [hflat] at this
      exact this
    obtain ⟨e1, he1⟩ := encLoop_lines k bpl (chunksOf bpl data) bpl
      (2 * data.length + 4) (List.replicate (min bpl data.length) 0) none
      data.length 0 []
      (by simp [hmin]) (by omega) hmem (by rw [hflat]; omega)
      (by omega)
    rw [hflat] at he1
    simp only [encodeData, h1]
    unfold pollWrite
    simp only [Nat.min_self, List.take_length]
    rw [he1]
    simp

/-! ### C1: decoder-side per-block machinery -/

theorem flatten_replicate_length (m : Nat) (c : List Nat) :
    (List.replicate m c).flatten.length = m * c.length := by
  induction m with
  | zero => simp
  | succ m ih =>
    rw [List.replicate_succ, List.flatten_cons, List.length_append, ih, Nat.succ_mul]
    omega

/-- The `Begin` state consumes the line-repeat byte and moves to the first
block of the line. -/
theorem loopBegin (k bpl fb B : Nat) (lbuf : List Nat) (r rb : Nat) (I : List Nat)
    (bs : Nat) (acc : List Nat) (f : Nat) :
    pollReadLoop (f + 1) ⟨k, bpl, fb, lbuf, r, .begin, B⟩ (rb :: I) bs acc =
      pollReadLoop f ⟨k, bpl, fb, lbuf, rb, .beginInlineBlock 0, B⟩ I bs acc := by
  apply pollReadLoop_next
  simp [pollReadStep]

/-- A `0x00..=0x7F` opcode in bounds moves to `ReadInlineBlock`. -/
theorem stepBIB_run (k bpl fb B : Nat) (lbuf : List Nat) (r t s : Nat)
    (rest : List Nat) (bs : Nat) (acc : List Nat)
    (ht : t ≤ 0x7f) (hext : (t + 1) * k ≤ lbuf.length - s) :
    pollReadStep ⟨k, bpl, fb, lbuf, r, .beginInlineBlock s, B⟩ (t :: rest) bs acc =
      .next ⟨k, bpl, fb, lbuf, r, .readInlineBlock t s k, B⟩ rest bs acc := by
  have hno : ¬(lbuf.length - s < (t + 1) * k) := by omega
  simp [pollReadStep, ht, hno]

/-- Reading the whole extent of a verbatim block (`repeat_last = 0`)
splices the payload into the line buffer and moves to `UseBuffer`. -/
theorem stepRIB_lit (k bpl fb B L : Nat) (lbuf payload more acc : List Nat) (r s m bs : Nat)
    (hlb : lbuf.length = L) (hsL : s ≤ L) (hm : 1 ≤ m) (hp : payload.length = m)
    (hbs : m ≤ bs) (hfit : s + m ≤ L) :
    pollReadStep ⟨k, bpl, fb, lbuf, r, .readInlineBlock 0 s m, B⟩ (payload ++ more) bs acc =
      .next ⟨k, bpl, fb, lbuf.take s ++ payload ++ lbuf.drop (s + m), r,
        .useBuffer (s + m) 0, B⟩ more (bs - m) (acc ++ payload) := by
  have hlen : (payload ++ more).length = m + more.length := by simp [hp]
  have hnReq : min bs m = m := by omega
  have hn : min m (m + more.length) = m := by omega
  have hm0 : ¬(m = 0) := by omega
  have htake : (payload ++ more).take m = payload := by
    rw [← hp]; exact List.take_left payload more
  have hdropin : (payload ++ more).drop m = more := by
    rw [← hp]; exact List.drop_left payload more
  have hslen : (lbuf.take s).length = s := by
    simp only [List.length_take]
    omega
  have hdropout : (lbuf.take s ++ (payload ++ lbuf.drop (s + m))).drop s =
      payload ++ lbuf.drop (s + m) := List.drop_left' hslen
  have htakeout : (payload ++ lbuf.drop (s + m)).take m = payload := by
    rw [← hp]; exact List.take_left payload _
  simp [pollReadStep, hlen, hnReq, hn, hm0, htake, hdropin, hdropout, htakeout]

/-- Reading the single chunk of a repeat block (`repeat_last = t`) splices
`t + 1` copies of the chunk into the line buffer and moves to `UseBuffer`. -/
theorem stepRIB_run (k bpl fb B L : Nat) (lbuf c more acc : List Nat) (r t s bs : Nat)
    (hk : 1 ≤ k) (hlb : lbuf.length = L) (hsL : s ≤ L) (hc : c.length = k)
    (hbs : (t + 1) * k ≤ bs) (hfit : s + (t + 1) * k ≤ L) :
    pollReadStep ⟨k, bpl, fb, lbuf, r, .readInlineBlock t s k, B⟩ (c ++ more) bs acc =
      .next ⟨k, bpl, fb,
        lbuf.take s ++ (List.replicate (t + 1) c).flatten ++ lbuf.drop (s + (t + 1) * k),
        r, .useBuffer (s + (t + 1) * k) 0, B⟩
        more (bs - (t + 1) * k) (acc ++ (List.replicate (t + 1) c).flatten) := by
  have hmul : (t + 1) * k = t * k + k := Nat.succ_mul t k
  have hlen : (c ++ more).length = k + more.length := by simp [hc]
  have hnReq : min bs k = k := by omega
  have hn : min k (k + more.length) = k := by omega
  have hk0 : ¬(k = 0) := by omega
  have htake : (c ++ more).take k = c := by
    rw [← hc]; exact List.take_left c more
  have hdropin : (c ++ more).drop k = more := by
    rw [← hc]; exact List.drop_left c more
  have hslen : (lbuf.take s).length = s := by
    simp only [List.length_take]
    omega
  have hcancel : s + k - k = s := by omega
  have h1 : (lbuf.take s ++ (c ++ lbuf.drop (s + k))).take (s + k) = lbuf.take s ++ c := by
    rw [List.take_append_eq_append_take, hslen,
      List.take_of_length_le (by rw [hslen]; omega),
      show s + k - s = k from by omega, ← hc, List.take_left]
  have hlast : (lbuf.take s ++ c).drop s = c := List.drop_left' hslen
  have hflatlen : (List.replicate (t + 1) c).flatten.length = (t + 1) * k := by
    rw [flatten_replicate_length, hc]
  have hnan : k + t * k = (t + 1) * k := by omega
  have hdropout :
      (lbuf.take s ++ ((List.replicate (t + 1) c).flatten ++ lbuf.drop (s + (t + 1) * k))).drop s
      = (List.replicate (t + 1) c).flatten ++ lbuf.drop (s + (t + 1) * k) :=
    List.drop_left' hslen
  have htakeout :
      ((List.replicate (t + 1) c).flatten ++ lbuf.drop (s + (t + 1) * k)).take ((t + 1) * k)
      = (List.replicate (t + 1) c).flatten := by
    rw [← hflatlen]
    exact List.take_left _ _
  rcases Nat.eq_zero_or_pos t with ht0 | htpos
  · subst ht0
    simp [pollReadStep, hlen, hnReq, hn, hk0, htake, hdropin]
    rw [List.drop_left' hslen, ← hc, List.take_left]
  · have ht0 : ¬(t = 0) := by omega
    have hlb1drop :
        (lbuf.take s ++ (c ++ lbuf.drop (s + k))).drop (s + k + t * k) =
        lbuf.drop (s + (t + 1) * k) := by
      rw [List.drop_append_eq_append_drop, hslen,
        List.drop_of_length_le (by rw [hslen]; omega), List.nil_append,
        List.drop_append_eq_append_drop, hc,
        List.drop_of_length_le (by rw [hc]; omega), List.nil_append,
        show s + k + t * k - s - k = t * k from by omega,
        List.drop_drop]
      congr 1
      omega
    have hfl : (List.replicate (t + 1) c).flatten = c ++ (List.replicate t c).flatten := by
      rw [List.replicate_succ, List.flatten_cons]
    have hread : min bs (k + t * k) = k + t * k := by omega
    simp [pollReadStep, hlen, hnReq, hn, hk0, htake, hdropin, ht0, h1, hcancel, hlast,
      hlb1drop, hread, hfl, hdropout, htakeout]
    refine ⟨hnan, by omega, ?_⟩
    rw [List.drop_left' hslen, ← List.append_assoc]
    apply List.take_left'
    simp [hc, flatten_replicate_length]

/-- `UseBuffer` with nothing left mid-line returns the bytes read so far and
parks at the next block. -/
theorem stepUB_mid (k bpl fb B : Nat) (lbuf input acc : List Nat) (r s bs : Nat)
    (hs : ¬(s = lbuf.length)) (hacc : acc ≠ []) :
    pollReadStep ⟨k, bpl, fb, lbuf, r, .useBuffer s 0, B⟩ input bs acc =
      .done (.ok acc,
        ⟨k, bpl, fb, lbuf, r, .beginInlineBlock s, B - acc.length⟩, input) := by
  have hacc0 : ¬(acc.length = 0) := by simpa using hacc
  simp [pollReadStep, hs, hacc0]

/-- Entering `UseBuffer 0 L` with `line_repeat = q` delivers `q + 1` full
copies of the line buffer and returns at `Begin`. -/
theorem loopRepeat (k bpl fb : Nat) (lbuf : List Nat) :
    ∀ (q : Nat) (B bs : Nat) (input acc : List Nat) (f : Nat),
    0 < lbuf.length → (q + 1) * lbuf.length ≤ bs →
    pollReadLoop (f + q + 1) ⟨k, bpl, fb, lbuf, q, .useBuffer 0 lbuf.length, B⟩ input bs acc =
      some (.ok (acc ++ (List.replicate (q + 1) lbuf).flatten),
        ⟨k, bpl, fb, lbuf, 0, .begin,
          B - (acc.length + (q + 1) * lbuf.length)⟩, input) := by
  intro q
  induction q with
  | zero =>
    intro B bs input acc f hL hbs
    have hread : min bs lbuf.length = lbuf.length := by omega
    have hstep : pollReadStep ⟨k, bpl, fb, lbuf, 0, .useBuffer 0 lbuf.length, B⟩
        input bs acc =
        .done (.ok (acc ++ lbuf),
          ⟨k, bpl, fb, lbuf, 0, .begin, B - (acc.length + lbuf.length)⟩, input) := by
      have hne : ¬((acc ++ lbuf).length = 0) := by
        simp only [List.length_append]
        omega
      simp [pollReadStep, hread, hne]
      intro _ h2
      rw [h2] at hL
      simp at hL
    rw [pollReadLoop_done hstep]
    simp
  | succ q ih =>
    intro B bs input acc f hL hbs
    have hq1 : (q + 1) * lbuf.length ≤ bs - lbuf.length := by
      have h := Nat.succ_mul (q + 1) lbuf.length
      simp only [Nat.succ_eq_add_one] at h
      omega
    have hread : min bs lbuf.length = lbuf.length := by
      have h := Nat.succ_mul (q + 1) lbuf.length
      simp only [Nat.succ_eq_add_one] at h
      omega
    have hstep : pollReadStep ⟨k, bpl, fb, lbuf, q + 1, .useBuffer 0 lbuf.length, B⟩
        input bs acc =
        .next ⟨k, bpl, fb, lbuf, q, .useBuffer 0 lbuf.length, B⟩
          input (bs - lbuf.length) (acc ++ lbuf) := by
      simp [pollReadStep, hread]
    rw [show f + (q + 1) + 1 = ((f + q + 1) + 1 : Nat) from by omega,
      pollReadLoop_next _ hstep,
      ih B (bs - lbuf.length) input (acc ++ lbuf) f hL hq1]
    simp only [List.append_assoc, List.length_append]
    rw [show List.replicate (q + 1 + 1) lbuf = lbuf :: List.replicate (q + 1) lbuf from rfl,
      List.flatten_cons]
    have hsum : acc.length + lbuf.length + (q + 1) * lbuf.length =
        acc.length + (q + 1 + 1) * lbuf.length := by
      have h := Nat.succ_mul (q + 1) lbuf.length
      simp only [Nat.succ_eq_add_one] at h
      omega
    rw [hsum]

/-- Finishing a line at `UseBuffer L 0`: run the `line_repeat` deliveries
and return at `Begin`. -/
theorem loopEnd (k bpl fb : Nat) (lbuf : List Nat) (r B bs : Nat) (input acc : List Nat)
    (hL : 0 < lbuf.length) (hacc : acc ≠ []) (hbs : r * lbuf.length ≤ bs) :
    ∀ f, pollReadLoop (f + r + 1) ⟨k, bpl, fb, lbuf, r, .useBuffer lbuf.length 0, B⟩
        input bs acc =
      some (.ok (acc ++ (List.replicate r lbuf).flatten),
        ⟨k, bpl, fb, lbuf, 0, .begin,
          B - (acc.length + r * lbuf.length)⟩, input) := by
  intro f
  rcases Nat.eq_zero_or_pos r with hr0 | hrpos
  · subst hr0
    have hacc0 : ¬(acc.length = 0) := by simpa using hacc
    have hstep : pollReadStep ⟨k, bpl, fb, lbuf, 0, .useBuffer lbuf.length 0, B⟩
        input bs acc =
        .done (.ok acc, ⟨k, bpl, fb, lbuf, 0, .begin, B - acc.length⟩, input) := by
      simp [pollReadStep, hacc0]
    rw [pollReadLoop_done hstep]
    simp
  · obtain ⟨q, rfl⟩ : ∃ q, r = q + 1 := ⟨r - 1, by omega⟩
    have hstep : pollReadStep ⟨k, bpl, fb, lbuf, q + 1, .useBuffer lbuf.length 0, B⟩
        input bs acc =
        .next ⟨k, bpl, fb, lbuf, q, .useBuffer 0 lbuf.length, B⟩ input bs acc := by
      simp [pollReadStep]
    rw [show f + (q + 1) + 1 = ((f + q + 1) + 1 : Nat) from by omega,
      pollReadLoop_next _ hstep,
      loopRepeat k bpl fb lbuf q B bs input acc f hL hbs]

theorem runLen_le (c : List Nat) : ∀ (rest : List (List Nat)) (t : Nat),
    t ≤ 0x7f → runLen c rest t ≤ 0x7f := by
  intro rest
  induction rest with
  | nil => intro t ht; simpa [runLen] using ht
  | cons c1 r ih =>
    intro t ht
    simp only [runLen]
    split
    · exact ht
    · rename_i h
      push_neg at h
      exact ih (t + 1) (by omega)

theorem runLen_le_len (c : List Nat) : ∀ (rest : List (List Nat)) (t : Nat),
    runLen c rest t ≤ t + rest.length := by
  intro rest
  induction rest with
  | nil => intro t; simp [runLen]
  | cons c1 r ih =>
    intro t
    simp only [runLen]
    split
    · simp
    · have := ih (t + 1)
      simp only [List.length_cons]
      omega

theorem runLen_take (c : List Nat) : ∀ (rest : List (List Nat)) (t : Nat),
    rest.take (runLen c rest t - t) = List.replicate (runLen c rest t - t) c := by
  intro rest
  induction rest with
  | nil => intro t; simp [runLen]
  | cons c1 r ih =>
    intro t
    simp only [runLen]
    split
    · simp
    · rename_i h
      push_neg at h
      obtain ⟨hc1, _⟩ := h
      have hge : t + 1 ≤ runLen c r (t + 1) := runLen_ge c r (t + 1)
      have hsub : runLen c r (t + 1) - t = (runLen c r (t + 1) - (t + 1)) + 1 := by omega
      rw [hsub, List.take_succ_cons, List.replicate_succ, ih (t + 1), hc1]

theorem litLen_le_len : ∀ (rest : List (List Nat)) (prev : List Nat) (cnt : Nat),
    litLen prev rest cnt ≤ cnt + rest.length := by
  intro rest
  induction rest with
  | nil => intro prev cnt; simp [litLen]
  | cons c r ih =>
    intro prev cnt
    simp only [litLen]
    split
    · simp
    · split
      · simp only [List.length_cons]
        omega
      · have := ih c (cnt + 1)
        simp only [List.length_cons]
        omega

theorem flatten_len_of_chunks (k : Nat) : ∀ (l : List (List Nat)),
    (∀ c ∈ l, c.length = k) → l.flatten.length = l.length * k := by
  intro l
  induction l with
  | nil => simp
  | cons c r ih =>
    intro h
    rw [List.flatten_cons, List.length_append, List.length_cons,
      ih (fun c2 h2 => h c2 (by simp [h2])), h c (by simp), Nat.succ_mul]
    omega

theorem getD_of_take_replicate (l : List (List Nat)) (n : Nat) (x : List Nat)
    (h : l.take (n + 1) = List.replicate (n + 1) x) (hn : n + 1 ≤ l.length) :
    l.getD n [] = x := by
  have h1 : (l.take (n + 1)).getD n [] = l.getD n [] := by
    rw [List.getD_eq_getElem?_getD, List.getD_eq_getElem?_getD, List.getElem?_take,
      if_pos (by omega)]
  rw [← h1, h, List.getD_eq_getElem?_getD, List.getElem?_replicate, if_pos (by omega)]
  rfl

/-- A `0x81..=0xFF` literal tag in bounds moves to `ReadInlineBlock` with the
decoded extent `count * chunk_size`. -/
theorem stepBIB_lit (k bpl fb B : Nat) (lbuf : List Nat) (r cnt s : Nat)
    (rest : List Nat) (bs : Nat) (acc : List Nat)
    (hcnt : 2 ≤ cnt) (hcnt2 : cnt ≤ 0x7f) (hext : cnt * k ≤ lbuf.length - s) :
    pollReadStep ⟨k, bpl, fb, lbuf, r, .beginInlineBlock s, B⟩ (litTag cnt :: rest) bs acc =
      .next ⟨k, bpl, fb, lbuf, r, .readInlineBlock 0 s (cnt * k), B⟩ rest bs acc := by
  have htag : litTag cnt = 257 - cnt := by
    rw [litTag, Nat.mod_eq_of_lt (by omega)]
  have hno : ¬(litTag cnt ≤ 0x7f) := by omega
  have hno80 : ¬(litTag cnt = 0x80) := by omega
  have hlen : 257 - litTag cnt = cnt := by omega
  have hfit : ¬(lbuf.length - s < (257 - litTag cnt) * k) := by
    rw [hlen]; omega
  simp [pollReadStep, hno, hno80, hfit, hlen]
  omega

theorem pollRead_pos (d : Decoder) (input : List Nat) (fuel : Nat)
    (hB : d.bytesRemaining ≠ 0) :
    pollRead d input d.bytesRemaining fuel =
      pollReadLoop fuel d input d.bytesRemaining [] := by
  rw [pollRead, Nat.min_self, if_neg hB]

/-- One `read_to_end` round: a successful non-empty `poll_read` prepends its
bytes to the rest of the drive. -/
theorem decodeAll_step (d : Decoder) (input out1 input1 : List Nat) (d1 : Decoder)
    (G : Nat) (tl1 : List Nat)
    (hB : d.bytesRemaining ≠ 0)
    (hpoll : pollRead d input d.bytesRemaining (G + 1) = some (.ok out1, d1, input1))
    (hne : out1 ≠ [])
    (hrec : decodeAll G d1 input1 = some (.ok tl1)) :
    decodeAll (G + 1) d input = some (.ok (out1 ++ tl1)) := by
  rw [decodeAll, if_neg hB, hpoll]
  have hlen : ¬(out1.length = 0) := by
    simpa using hne
  simp only [hlen, if_false, hrec]

/-- Completing the last block of a line at `UseBuffer`: normalise the spliced
line buffer and run the repeat deliveries. -/
theorem loopFinishLine (k bpl fb B L : Nat) (lbuf E input : List Nat) (r s mE bs : Nat)
    (hlb : lbuf.length = L) (hsl : s ≤ L) (hse : s + mE = L) (hE : E.length = mE)
    (hEne : E ≠ []) (hbs : r * L ≤ bs) :
    ∀ f, pollReadLoop (f + r + 1)
        ⟨k, bpl, fb, lbuf.take s ++ E ++ lbuf.drop (s + mE), r, .useBuffer (s + mE) 0, B⟩
        input bs ([] ++ E) =
      some (.ok (E ++ (List.replicate r (lbuf.take s ++ E)).flatten),
        ⟨k, bpl, fb, lbuf.take s ++ E, 0, .begin, B - (mE + r * L)⟩, input) := by
  intro f
  have hdropnil : lbuf.drop (s + mE) = [] := by
    apply List.drop_of_length_le
    omega
  have hslen : (lbuf.take s).length = s := by
    simp only [List.length_take]
    omega
  have hlen2 : (lbuf.take s ++ E).length = s + mE := by
    simp only [List.length_append, hslen, hE]
  have hLpos : 0 < (lbuf.take s ++ E).length := by
    rw [hlen2]
    have hm : 0 < mE := by
      rcases E with _ | ⟨a, E2⟩
      · exact absurd rfl hEne
      · simp only [List.length_cons] at hE
        omega
    omega
  have hacc : ([] : List Nat) ++ E ≠ [] := by simpa using hEne
  have hbs2 : r * (lbuf.take s ++ E).length ≤ bs := by
    rw [hlen2, hse]
    exact hbs
  rw [hdropnil, List.append_nil]
  rw [show s + mE = (lbuf.take s ++ E).length from by rw [hlen2]]
  rw [loopEnd k bpl fb (lbuf.take s ++ E) r B bs input ([] ++ E) hLpos hacc hbs2 f]
  simp only [List.nil_append, List.length_append, hslen, hE, hlen2, hse]

theorem take_splice (lbuf E : List Nat) (s mE : Nat)
    (hsle : s ≤ lbuf.length) (hElen : E.length = mE) :
    (lbuf.take s ++ E ++ lbuf.drop (s + mE)).take (s + mE) = lbuf.take s ++ E := by
  apply List.take_left'
  simp only [List.length_append, List.length_take, hElen]
  omega

/-- Glue for a non-final block: a `poll_read` that returned one block's
expansion, followed by a successful drive of the remaining blocks, drives
the whole suffix. -/
theorem decLine_glue (k bpl fb : Nat) (cs cs2 : List (List Nat))
    (E input rest tail lbuf : List Nat) (d1 : Decoder) (s B r G : Nat)
    (hEne : E ≠ [])
    (hB0 : B ≠ 0)
    (hflatsplit : cs.flatten = E ++ cs2.flatten)
    (hpoll : pollRead ⟨k, bpl, fb, lbuf, r, .beginInlineBlock s, B⟩ input
        (Decoder.bytesRemaining ⟨k, bpl, fb, lbuf, r, .beginInlineBlock s, B⟩) (G + 1) =
      some (.ok E, d1, encBlocks cs2 ++ rest))
    (hrec : decodeAll G d1 (encBlocks cs2 ++ rest) =
      some (.ok (cs2.flatten ++
        (List.replicate r (lbuf.take s ++ cs.flatten)).flatten ++ tail))) :
    decodeAll (G + 1) ⟨k, bpl, fb, lbuf, r, .beginInlineBlock s, B⟩ input =
      some (.ok (cs.flatten ++
        (List.replicate r (lbuf.take s ++ cs.flatten)).flatten ++ tail)) := by
  have h := decodeAll_step ⟨k, bpl, fb, lbuf, r, .beginInlineBlock s, B⟩
    input E (encBlocks cs2 ++ rest) d1 G _ hB0 hpoll hEne hrec
  rw [h, hflatsplit]
  simp [List.append_assoc]

/-- Decoding one line group: from `BeginInlineBlock` with the group's blocks
on the wire, `read_to_end` delivers the line's remaining bytes, the
`line_repeat` copies, and then whatever the continuation delivers. -/
theorem decLine (k bpl fb L : Nat) (hk : 1 ≤ k) :
    ∀ (n : Nat) (cs : List (List Nat)), cs.length ≤ n → cs ≠ [] →
      (∀ c ∈ cs, c.length = k) →
      ∀ (s : Nat) (lbuf : List Nat) (r B T : Nat) (rest : List Nat) (tail : List Nat)
        (fuelC : Nat),
      lbuf.length = L →
      s + k * cs.length = L →
      B = (L - s) + r * L + T →
      (∀ G, fuelC ≤ G →
        decodeAll G ⟨k, bpl, fb, lbuf.take s ++ cs.flatten, 0, .begin, T⟩ rest =
          some (.ok tail)) →
      ∀ F, fuelC + cs.length + r + 3 ≤ F →
        decodeAll F ⟨k, bpl, fb, lbuf, r, .beginInlineBlock s, B⟩ (encBlocks cs ++ rest) =
          some (.ok (cs.flatten ++
            (List.replicate r (lbuf.take s ++ cs.flatten)).flatten ++ tail)) := by
  intro n
  induction n with
  | zero =>
    intro cs hlen hne
    cases cs with
    | nil => exact absurd rfl hne
    | cons c1 cs1 => simp at hlen
  | succ n ih =>
    intro cs hlen hne hall s lbuf r B T rest tail fuelC hlb hsL hB hcont F hF
    have hcspos : 1 ≤ cs.length := by
      cases cs with
      | nil => exact absurd rfl hne
      | cons a b => simp
    have hkcs : k ≤ k * cs.length := Nat.le_mul_of_pos_right k hcspos
    have hsle : s ≤ L := by omega
    have hLpos : 0 < L := by omega
    have hB0 : B ≠ 0 := by omega
    obtain ⟨G, rfl⟩ : ∃ G, F = G + 1 := ⟨F - 1, by omega⟩
    match cs, hne with
    | [c1], _ =>
      have hc1k : c1.length = k := hall c1 (by simp)
      have hskL : s + k = L := by
        have h1 : k * ([c1] : List (List Nat)).length = k := by simp
        omega
      have hc1ne : c1 ≠ [] := by
        intro h
        rw [h] at hc1k
        simp at hc1k
        omega
      have hBeq : B = k + r * L + T := by omega
      obtain ⟨G2, rfl⟩ : ∃ G2, G = G2 + 1 := ⟨G - 1, by omega⟩
      obtain ⟨f, rfl⟩ : ∃ f, G2 = f + r + 1 := ⟨G2 - r - 1, by omega⟩
      have h1 : pollReadStep ⟨k, bpl, fb, lbuf, r, .beginInlineBlock s, B⟩
          (0 :: (c1 ++ rest)) B [] =
          .next ⟨k, bpl, fb, lbuf, r, .readInlineBlock 0 s k, B⟩ (c1 ++ rest) B [] := by
        have h0 := stepBIB_run k bpl fb B lbuf r 0 s (c1 ++ rest) B []
          (by omega) (by rw [hlb]; omega)
        simpa using h0
      have h2 : pollReadStep ⟨k, bpl, fb, lbuf, r, .readInlineBlock 0 s k, B⟩
          (c1 ++ rest) B [] =
          .next ⟨k, bpl, fb, lbuf.take s ++ c1 ++ lbuf.drop (s + k), r,
            .useBuffer (s + k) 0, B⟩ rest (B - k) ([] ++ c1) :=
        stepRIB_lit k bpl fb B L lbuf c1 rest [] r s k B hlb hsle (by omega) hc1k
          (by omega) (by omega)
      have h3 := loopFinishLine k bpl fb B L lbuf c1 rest r s k (B - k)
        hlb hsle hskL hc1k hc1ne (by omega) f
      have hpoll : pollRead ⟨k, bpl, fb, lbuf, r, .beginInlineBlock s, B⟩
          (0 :: (c1 ++ rest))
          (Decoder.bytesRemaining ⟨k, bpl, fb, lbuf, r, .beginInlineBlock s, B⟩)
          (f + r + 1 + 1 + 1) =
          some (.ok (c1 ++ (List.replicate r (lbuf.take s ++ c1)).flatten),
            ⟨k, bpl, fb, lbuf.take s ++ c1, 0, .begin, B - (k + r * L)⟩, rest) := by
        rw [pollRead_pos _ _ _ hB0]
        rw [show (f + r + 1 + 1 + 1 : Nat) = (f + r + 1 + 1) + 1 from rfl,
          pollReadLoop_next _ h1, pollReadLoop_next _ h2, h3]
      have hrec : decodeAll (f + r + 1 + 1)
          ⟨k, bpl, fb, lbuf.take s ++ c1, 0, .begin, B - (k + r * L)⟩ rest =
          some (.ok tail) := by
        have hc := hcont (f + r + 1 + 1) (by omega)
        simp only [List.flatten_cons, List.flatten_nil, List.append_nil] at hc
        rw [show B - (k + r * L) = T from by omega]
        exact hc
      have hstep := decodeAll_step ⟨k, bpl, fb, lbuf, r, .beginInlineBlock s, B⟩
        (0 :: (c1 ++ rest)) (c1 ++ (List.replicate r (lbuf.take s ++ c1)).flatten)
        rest ⟨k, bpl, fb, lbuf.take s ++ c1, 0, .begin, B - (k + r * L)⟩
        (f + r + 1 + 1) tail hB0 hpoll
        (by
          intro h
          have hlc := congrArg List.length h
          simp [hc1k] at hlc
          omega)
        hrec
      rw [show encBlocks [c1] = 0 :: c1 from by rw [encBlocks], List.cons_append]
      simp only [List.flatten_cons, List.flatten_nil, List.append_nil]
      exact hstep
    | c1 :: c2 :: rest2, _ =>
      have hc1k : c1.length = k := hall c1 (by simp)
      have hc1ne : c1 ≠ [] := by
        intro h
        rw [h] at hc1k
        simp at hc1k
        omega
      by_cases hc12 : c1 = c2
      · -- run block
        have hBlk : encBlocks (c1 :: c2 :: rest2) =
            runLen c1 rest2 1 ::
              ((c1 :: c2 :: rest2).getD (runLen c1 rest2 1) [] ++
                encBlocks ((c1 :: c2 :: rest2).drop (runLen c1 rest2 1 + 1))) := by
          rw [encBlocks, if_pos hc12]
        have ht1 : 1 ≤ runLen c1 rest2 1 := runLen_ge c1 rest2 1
        have ht7f : runLen c1 rest2 1 ≤ 0x7f := runLen_le c1 rest2 1 (by omega)
        have htlen : runLen c1 rest2 1 ≤ 1 + rest2.length := runLen_le_len c1 rest2 1
        have htake : (c1 :: c2 :: rest2).take (runLen c1 rest2 1 + 1) =
            List.replicate (runLen c1 rest2 1 + 1) c1 := by
          obtain ⟨u, hu⟩ : ∃ u, runLen c1 rest2 1 = u + 1 :=
            ⟨runLen c1 rest2 1 - 1, by omega⟩
          have hru : rest2.take u = List.replicate u c1 := by
            have h0 := runLen_take c1 rest2 1
            rw [hu] at h0
            simpa using h0
          rw [hu, show u + 1 + 1 = u + 2 from rfl]
          simp only [List.take_succ_cons]
          rw [← hc12, hru, List.replicate_succ, List.replicate_succ]
        have hmlecs : runLen c1 rest2 1 + 1 ≤ (c1 :: c2 :: rest2).length := by
          simp only [List.length_cons]
          omega
        have hgetD : (c1 :: c2 :: rest2).getD (runLen c1 rest2 1) [] = c1 :=
          getD_of_take_replicate _ _ c1 htake hmlecs
        have hcsl : s + k * (rest2.length + 2) = L := by
          simpa using hsL
        have hmulle : (runLen c1 rest2 1 + 1) * k ≤ k * (rest2.length + 2) := by
          calc (runLen c1 rest2 1 + 1) * k ≤ (rest2.length + 2) * k :=
                Nat.mul_le_mul_right k (by omega)
          _ = k * (rest2.length + 2) := Nat.mul_comm _ _
        have hext : (runLen c1 rest2 1 + 1) * k ≤ L - s := by omega
        have hBge : (runLen c1 rest2 1 + 1) * k ≤ B := by omega
        have hfit2 : s + (runLen c1 rest2 1 + 1) * k ≤ L := by omega
        have hElen : ((List.replicate (runLen c1 rest2 1 + 1) c1).flatten).length = (runLen c1 rest2 1 + 1) * k := by
          rw [flatten_replicate_length, hc1k]
        have hEne : (List.replicate (runLen c1 rest2 1 + 1) c1).flatten ≠ [] := by
          intro h
          have hl0 := congrArg List.length h
          rw [hElen] at hl0
          simp at hl0
          have h1 : 1 * 1 ≤ (runLen c1 rest2 1 + 1) * k := Nat.mul_le_mul (by omega) hk
          omega
        have hflatsplit : (c1 :: c2 :: rest2).flatten =
            (List.replicate (runLen c1 rest2 1 + 1) c1).flatten ++ ((c1 :: c2 :: rest2).drop (runLen c1 rest2 1 + 1)).flatten := by
          rw [show (List.replicate (runLen c1 rest2 1 + 1) c1).flatten = ((c1 :: c2 :: rest2).take (runLen c1 rest2 1 + 1)).flatten from by rw [htake],
            ← List.flatten_append, List.take_append_drop]
        have h1 : pollReadStep ⟨k, bpl, fb, lbuf, r, .beginInlineBlock s, B⟩
            (runLen c1 rest2 1 :: (c1 ++ (encBlocks ((c1 :: c2 :: rest2).drop (runLen c1 rest2 1 + 1)) ++ rest))) B [] =
            .next ⟨k, bpl, fb, lbuf, r, .readInlineBlock (runLen c1 rest2 1) s k, B⟩
              (c1 ++ (encBlocks ((c1 :: c2 :: rest2).drop (runLen c1 rest2 1 + 1)) ++ rest)) B [] :=
          stepBIB_run k bpl fb B lbuf r (runLen c1 rest2 1) s
            (c1 ++ (encBlocks ((c1 :: c2 :: rest2).drop (runLen c1 rest2 1 + 1)) ++ rest)) B [] ht7f (by rw [hlb]; omega)
        have h2 : pollReadStep ⟨k, bpl, fb, lbuf, r, .readInlineBlock (runLen c1 rest2 1) s k, B⟩
            (c1 ++ (encBlocks ((c1 :: c2 :: rest2).drop (runLen c1 rest2 1 + 1)) ++ rest)) B [] =
            .next ⟨k, bpl, fb,
              lbuf.take s ++ (List.replicate (runLen c1 rest2 1 + 1) c1).flatten ++ lbuf.drop (s + (runLen c1 rest2 1 + 1) * k),
              r, .useBuffer (s + (runLen c1 rest2 1 + 1) * k) 0, B⟩
              (encBlocks ((c1 :: c2 :: rest2).drop (runLen c1 rest2 1 + 1)) ++ rest) (B - (runLen c1 rest2 1 + 1) * k) ([] ++ (List.replicate (runLen c1 rest2 1 + 1) c1).flatten) :=
          stepRIB_run k bpl fb B L lbuf c1 (encBlocks ((c1 :: c2 :: rest2).drop (runLen c1 rest2 1 + 1)) ++ rest) [] r (runLen c1 rest2 1) s B
            hk hlb hsle hc1k hBge hfit2
        by_cases hfin : (c1 :: c2 :: rest2).drop (runLen c1 rest2 1 + 1) = []
        · have hdroplen : ((c1 :: c2 :: rest2).drop (runLen c1 rest2 1 + 1)).length = 0 := by
            rw [hfin]
            rfl
          have hteq : runLen c1 rest2 1 + 1 = rest2.length + 2 := by
            simp only [List.length_drop, List.length_cons] at hdroplen
            omega
          have hskL2 : s + (runLen c1 rest2 1 + 1) * k = L := by
            have hc : (runLen c1 rest2 1 + 1) * k = k * (rest2.length + 2) := by
              rw [hteq, Nat.mul_comm]
            omega
          obtain ⟨G2, rfl⟩ : ∃ G2, G = G2 + 1 := ⟨G - 1, by omega⟩
          obtain ⟨f, rfl⟩ : ∃ f, G2 = f + r + 1 := ⟨G2 - r - 1, by omega⟩
          have h3 := loopFinishLine k bpl fb B L lbuf ((List.replicate (runLen c1 rest2 1 + 1) c1).flatten) rest r s
            ((runLen c1 rest2 1 + 1) * k) (B - (runLen c1 rest2 1 + 1) * k) hlb hsle hskL2 hElen hEne (by omega) f
          have hflatE : (c1 :: c2 :: rest2).flatten = (List.replicate (runLen c1 rest2 1 + 1) c1).flatten := by
            rw [hflatsplit, hfin]
            simp
          have hpoll : pollRead ⟨k, bpl, fb, lbuf, r, .beginInlineBlock s, B⟩
              (runLen c1 rest2 1 :: (c1 ++ (encBlocks ((c1 :: c2 :: rest2).drop (runLen c1 rest2 1 + 1)) ++ rest)))
              (Decoder.bytesRemaining ⟨k, bpl, fb, lbuf, r, .beginInlineBlock s, B⟩)
              (f + r + 1 + 1 + 1) =
              some (.ok ((List.replicate (runLen c1 rest2 1 + 1) c1).flatten ++ (List.replicate r (lbuf.take s ++ (List.replicate (runLen c1 rest2 1 + 1) c1).flatten)).flatten),
                ⟨k, bpl, fb, lbuf.take s ++ (List.replicate (runLen c1 rest2 1 + 1) c1).flatten, 0, .begin,
                  B - ((runLen c1 rest2 1 + 1) * k + r * L)⟩, rest) := by
            rw [pollRead_pos _ _ _ hB0,
              show (f + r + 1 + 1 + 1 : Nat) = (f + r + 1 + 1) + 1 from rfl,
              pollReadLoop_next _ h1, pollReadLoop_next _ h2, hfin,
              show encBlocks ([] : List (List Nat)) = [] from by rw [encBlocks],
              List.nil_append, h3]
          have hrec : decodeAll (f + r + 1 + 1)
              ⟨k, bpl, fb, lbuf.take s ++ (List.replicate (runLen c1 rest2 1 + 1) c1).flatten, 0, .begin,
                B - ((runLen c1 rest2 1 + 1) * k + r * L)⟩ rest = some (.ok tail) := by
            have hc := hcont (f + r + 1 + 1) (by omega)
            rw [hflatE] at hc
            rw [show B - ((runLen c1 rest2 1 + 1) * k + r * L) = T from by omega]
            exact hc
          have hstep := decodeAll_step ⟨k, bpl, fb, lbuf, r, .beginInlineBlock s, B⟩
            (runLen c1 rest2 1 :: (c1 ++ (encBlocks ((c1 :: c2 :: rest2).drop (runLen c1 rest2 1 + 1)) ++ rest)))
            ((List.replicate (runLen c1 rest2 1 + 1) c1).flatten ++ (List.replicate r (lbuf.take s ++ (List.replicate (runLen c1 rest2 1 + 1) c1).flatten)).flatten) rest
            ⟨k, bpl, fb, lbuf.take s ++ (List.replicate (runLen c1 rest2 1 + 1) c1).flatten, 0, .begin,
              B - ((runLen c1 rest2 1 + 1) * k + r * L)⟩
            (f + r + 1 + 1) tail hB0 hpoll
            (by
              intro h
              apply hEne
              exact (List.append_eq_nil.mp h).1)
            hrec
          rw [hBlk, hgetD, List.cons_append, List.append_assoc, hflatE]
          exact hstep
        · have hcs2pos : 1 ≤ ((c1 :: c2 :: rest2).drop (runLen c1 rest2 1 + 1)).length := by
            rcases hd : (c1 :: c2 :: rest2).drop (runLen c1 rest2 1 + 1) with _ | ⟨a, b⟩
            · exact absurd hd hfin
            · simp
          have hdroplen2 : ((c1 :: c2 :: rest2).drop (runLen c1 rest2 1 + 1)).length =
              rest2.length + 2 - (runLen c1 rest2 1 + 1) := by
            simp
          have hs'L : (s + (runLen c1 rest2 1 + 1) * k) + k * ((c1 :: c2 :: rest2).drop (runLen c1 rest2 1 + 1)).length = L := by
            rw [hdroplen2]
            have hmm : k * (rest2.length + 2) =
                k * (runLen c1 rest2 1 + 1) + k * (rest2.length + 2 - (runLen c1 rest2 1 + 1)) := by
              rw [← Nat.mul_add]
              congr 1
              omega
            have hcm : (runLen c1 rest2 1 + 1) * k = k * (runLen c1 rest2 1 + 1) := Nat.mul_comm _ _
            omega
          have hlb2 : (lbuf.take s ++ (List.replicate (runLen c1 rest2 1 + 1) c1).flatten ++
              lbuf.drop (s + (runLen c1 rest2 1 + 1) * k)).length = L := by
            simp only [List.length_append, List.length_take, List.length_drop, hElen, hlb]
            omega
          have hprod1 : 1 ≤ k * ((c1 :: c2 :: rest2).drop (runLen c1 rest2 1 + 1)).length := by
            have hmm := Nat.mul_le_mul hk hcs2pos
            omega
          have hnotend : ¬(s + (runLen c1 rest2 1 + 1) * k =
              (lbuf.take s ++ (List.replicate (runLen c1 rest2 1 + 1) c1).flatten ++ lbuf.drop (s + (runLen c1 rest2 1 + 1) * k)).length) := by
            rw [hlb2]
            omega
          obtain ⟨G2, rfl⟩ : ∃ G2, G = G2 + 1 := ⟨G - 1, by omega⟩
          have h3 := stepUB_mid k bpl fb B
            (lbuf.take s ++ (List.replicate (runLen c1 rest2 1 + 1) c1).flatten ++ lbuf.drop (s + (runLen c1 rest2 1 + 1) * k))
            (encBlocks ((c1 :: c2 :: rest2).drop (runLen c1 rest2 1 + 1)) ++ rest) ([] ++ (List.replicate (runLen c1 rest2 1 + 1) c1).flatten) r
            (s + (runLen c1 rest2 1 + 1) * k) (B - (runLen c1 rest2 1 + 1) * k) hnotend (by simpa using hEne)
          have hpoll : pollRead ⟨k, bpl, fb, lbuf, r, .beginInlineBlock s, B⟩
              (runLen c1 rest2 1 :: (c1 ++ (encBlocks ((c1 :: c2 :: rest2).drop (runLen c1 rest2 1 + 1)) ++ rest)))
              (Decoder.bytesRemaining ⟨k, bpl, fb, lbuf, r, .beginInlineBlock s, B⟩)
              (G2 + 1 + 1) =
              some (.ok ((List.replicate (runLen c1 rest2 1 + 1) c1).flatten),
                ⟨k, bpl, fb,
                  lbuf.take s ++ (List.replicate (runLen c1 rest2 1 + 1) c1).flatten ++ lbuf.drop (s + (runLen c1 rest2 1 + 1) * k), r,
                  .beginInlineBlock (s + (runLen c1 rest2 1 + 1) * k), B - (runLen c1 rest2 1 + 1) * k⟩,
                encBlocks ((c1 :: c2 :: rest2).drop (runLen c1 rest2 1 + 1)) ++ rest) := by
            rw [pollRead_pos _ _ _ hB0,
              show (G2 + 1 + 1 : Nat) = (G2 + 1) + 1 from rfl,
              pollReadLoop_next _ h1, pollReadLoop_next _ h2, pollReadLoop_done h3]
            simp only [List.nil_append, hElen]
          have htsplice : (lbuf.take s ++ (List.replicate (runLen c1 rest2 1 + 1) c1).flatten ++
              lbuf.drop (s + (runLen c1 rest2 1 + 1) * k)).take (s + (runLen c1 rest2 1 + 1) * k) =
              lbuf.take s ++ (List.replicate (runLen c1 rest2 1 + 1) c1).flatten :=
            take_splice lbuf ((List.replicate (runLen c1 rest2 1 + 1) c1).flatten) s ((runLen c1 rest2 1 + 1) * k) (by omega) hElen
          have hbufeq : (lbuf.take s ++ (List.replicate (runLen c1 rest2 1 + 1) c1).flatten ++
              lbuf.drop (s + (runLen c1 rest2 1 + 1) * k)).take (s + (runLen c1 rest2 1 + 1) * k) ++
                ((c1 :: c2 :: rest2).drop (runLen c1 rest2 1 + 1)).flatten =
              lbuf.take s ++ (c1 :: c2 :: rest2).flatten := by
            rw [htsplice, List.append_assoc, ← hflatsplit]
          have hcont2 : ∀ G', fuelC ≤ G' →
              decodeAll G' ⟨k, bpl, fb,
                (lbuf.take s ++ (List.replicate (runLen c1 rest2 1 + 1) c1).flatten ++
                  lbuf.drop (s + (runLen c1 rest2 1 + 1) * k)).take (s + (runLen c1 rest2 1 + 1) * k) ++
                  ((c1 :: c2 :: rest2).drop (runLen c1 rest2 1 + 1)).flatten, 0, .begin, T⟩ rest =
                some (.ok tail) := by
            intro G2x hG2x
            rw [hbufeq]
            exact hcont G2x hG2x
          have hrec0 := ih ((c1 :: c2 :: rest2).drop (runLen c1 rest2 1 + 1))
            (by
              rw [hdroplen2]
              simp only [List.length_cons] at hlen
              omega)
            hfin
            (fun c hc => hall c (List.mem_of_mem_drop hc))
            (s + (runLen c1 rest2 1 + 1) * k)
            (lbuf.take s ++ (List.replicate (runLen c1 rest2 1 + 1) c1).flatten ++ lbuf.drop (s + (runLen c1 rest2 1 + 1) * k))
            r (B - (runLen c1 rest2 1 + 1) * k) T rest tail fuelC hlb2 hs'L
            (by omega)
            hcont2 (G2 + 1)
            (by
              rw [hdroplen2]
              simp only [List.length_cons] at hF
              omega)
          rw [hbufeq] at hrec0
          have hglue := decLine_glue k bpl fb (c1 :: c2 :: rest2) ((c1 :: c2 :: rest2).drop (runLen c1 rest2 1 + 1))
            ((List.replicate (runLen c1 rest2 1 + 1) c1).flatten) (runLen c1 rest2 1 :: (c1 ++ (encBlocks ((c1 :: c2 :: rest2).drop (runLen c1 rest2 1 + 1)) ++ rest))) rest tail lbuf
            ⟨k, bpl, fb,
              lbuf.take s ++ (List.replicate (runLen c1 rest2 1 + 1) c1).flatten ++ lbuf.drop (s + (runLen c1 rest2 1 + 1) * k), r,
              .beginInlineBlock (s + (runLen c1 rest2 1 + 1) * k), B - (runLen c1 rest2 1 + 1) * k⟩
            s B r (G2 + 1) hEne hB0 hflatsplit hpoll hrec0
          rw [hBlk, hgetD, List.cons_append, List.append_assoc]
          exact hglue
      · -- literal block
        have hBlk : encBlocks (c1 :: c2 :: rest2) =
            litTag (litLen c2 rest2 1) ::
              (((c1 :: c2 :: rest2).take (litLen c2 rest2 1)).flatten ++ encBlocks ((c1 :: c2 :: rest2).drop (litLen c2 rest2 1))) := by
          rw [encBlocks, if_neg hc12]
        have hcnt1 : 1 ≤ litLen c2 rest2 1 := litLen_ge rest2 c2 1
        have hcnt7f : litLen c2 rest2 1 ≤ 0x7f := litLen_le rest2 c2 1 (by omega)
        have hcntlen : litLen c2 rest2 1 ≤ 1 + rest2.length := litLen_le_len rest2 c2 1
        have hcsl : s + k * (rest2.length + 2) = L := by
          simpa using hsL
        have hdroplen2 : ((c1 :: c2 :: rest2).drop (litLen c2 rest2 1)).length = rest2.length + 2 - (litLen c2 rest2 1) := by
          simp
        have hfin : (c1 :: c2 :: rest2).drop (litLen c2 rest2 1) ≠ [] := by
          intro h
          have hl0 := congrArg List.length h
          rw [hdroplen2] at hl0
          simp at hl0
          omega
        have hcs2pos : 1 ≤ ((c1 :: c2 :: rest2).drop (litLen c2 rest2 1)).length := by
          rcases hd : (c1 :: c2 :: rest2).drop (litLen c2 rest2 1) with _ | ⟨a, b⟩
          · exact absurd hd hfin
          · simp
        have hElen : (((c1 :: c2 :: rest2).take (litLen c2 rest2 1)).flatten).length = (litLen c2 rest2 1) * k := by
          rw [flatten_len_of_chunks k _ (fun c hc => hall c (List.mem_of_mem_take hc)),
            List.length_take,
            show min (litLen c2 rest2 1) (c1 :: c2 :: rest2).length = litLen c2 rest2 1 from by
              simp only [List.length_cons]
              omega]
        have hEne : ((c1 :: c2 :: rest2).take (litLen c2 rest2 1)).flatten ≠ [] := by
          intro h
          have hl0 := congrArg List.length h
          rw [hElen] at hl0
          simp at hl0
          have h1 : 1 * 1 ≤ (litLen c2 rest2 1) * k := Nat.mul_le_mul (by omega) hk
          omega
        have hflatsplit : (c1 :: c2 :: rest2).flatten = ((c1 :: c2 :: rest2).take (litLen c2 rest2 1)).flatten ++ ((c1 :: c2 :: rest2).drop (litLen c2 rest2 1)).flatten := by
          rw [← List.flatten_append, List.take_append_drop]
        have hmulle : (litLen c2 rest2 1) * k ≤ k * (rest2.length + 2) := by
          calc (litLen c2 rest2 1) * k ≤ (rest2.length + 2) * k :=
                Nat.mul_le_mul_right k (by omega)
          _ = k * (rest2.length + 2) := Nat.mul_comm _ _
        have hext : (litLen c2 rest2 1) * k ≤ L - s := by omega
        have hBge : (litLen c2 rest2 1) * k ≤ B := by omega
        have hfit2 : s + (litLen c2 rest2 1) * k ≤ L := by omega
        have hs'L : (s + (litLen c2 rest2 1) * k) + k * ((c1 :: c2 :: rest2).drop (litLen c2 rest2 1)).length = L := by
          rw [hdroplen2]
          have hmm : k * (rest2.length + 2) =
              k * (litLen c2 rest2 1) + k * (rest2.length + 2 - (litLen c2 rest2 1)) := by
            rw [← Nat.mul_add]
            congr 1
            omega
          have hcm : (litLen c2 rest2 1) * k = k * (litLen c2 rest2 1) := Nat.mul_comm _ _
          omega
        have hlb2 : (lbuf.take s ++ ((c1 :: c2 :: rest2).take (litLen c2 rest2 1)).flatten ++
            lbuf.drop (s + (litLen c2 rest2 1) * k)).length = L := by
          simp only [List.length_append, List.length_take, List.length_drop, hElen, hlb]
          omega
        have hprod1 : 1 ≤ k * ((c1 :: c2 :: rest2).drop (litLen c2 rest2 1)).length := by
          have hmm := Nat.mul_le_mul hk hcs2pos
          omega
        have hnotend : ¬(s + (litLen c2 rest2 1) * k =
            (lbuf.take s ++ ((c1 :: c2 :: rest2).take (litLen c2 rest2 1)).flatten ++ lbuf.drop (s + (litLen c2 rest2 1) * k)).length) := by
          rw [hlb2]
          omega
        obtain ⟨G2, rfl⟩ : ∃ G2, G = G2 + 1 := ⟨G - 1, by omega⟩
        have h3 := stepUB_mid k bpl fb B
          (lbuf.take s ++ ((c1 :: c2 :: rest2).take (litLen c2 rest2 1)).flatten ++ lbuf.drop (s + (litLen c2 rest2 1) * k))
          (encBlocks ((c1 :: c2 :: rest2).drop (litLen c2 rest2 1)) ++ rest) ([] ++ ((c1 :: c2 :: rest2).take (litLen c2 rest2 1)).flatten) r
          (s + (litLen c2 rest2 1) * k) (B - (litLen c2 rest2 1) * k) hnotend (by simpa using hEne)
        have htsplice : (lbuf.take s ++ ((c1 :: c2 :: rest2).take (litLen c2 rest2 1)).flatten ++
            lbuf.drop (s + (litLen c2 rest2 1) * k)).take (s + (litLen c2 rest2 1) * k) =
            lbuf.take s ++ ((c1 :: c2 :: rest2).take (litLen c2 rest2 1)).flatten :=
          take_splice lbuf (((c1 :: c2 :: rest2).take (litLen c2 rest2 1)).flatten) s ((litLen c2 rest2 1) * k) (by omega) hElen
        have hbufeq : (lbuf.take s ++ ((c1 :: c2 :: rest2).take (litLen c2 rest2 1)).flatten ++
            lbuf.drop (s + (litLen c2 rest2 1) * k)).take (s + (litLen c2 rest2 1) * k) ++
              ((c1 :: c2 :: rest2).drop (litLen c2 rest2 1)).flatten =
            lbuf.take s ++ (c1 :: c2 :: rest2).flatten := by
          rw [htsplice, List.append_assoc, ← hflatsplit]
        have hcont2 : ∀ G', fuelC ≤ G' →
            decodeAll G' ⟨k, bpl, fb,
              (lbuf.take s ++ ((c1 :: c2 :: rest2).take (litLen c2 rest2 1)).flatten ++
                lbuf.drop (s + (litLen c2 rest2 1) * k)).take (s + (litLen c2 rest2 1) * k) ++
                ((c1 :: c2 :: rest2).drop (litLen c2 rest2 1)).flatten, 0, .begin, T⟩ rest =
              some (.ok tail) := by
          intro G2x hG2x
          rw [hbufeq]
          exact hcont G2x hG2x
        have hrec0 := ih ((c1 :: c2 :: rest2).drop (litLen c2 rest2 1))
          (by
            rw [hdroplen2]
            simp only [List.length_cons] at hlen
            omega)
          hfin
          (fun c hc => hall c (List.mem_of_mem_drop hc))
          (s + (litLen c2 rest2 1) * k)
          (lbuf.take s ++ ((c1 :: c2 :: rest2).take (litLen c2 rest2 1)).flatten ++ lbuf.drop (s + (litLen c2 rest2 1) * k))
          r (B - (litLen c2 rest2 1) * k) T rest tail fuelC hlb2 hs'L
          (by omega)
          hcont2 (G2 + 1)
          (by
            rw [hdroplen2]
            simp only [List.length_cons] at hF
            omega)
        rw [hbufeq] at hrec0
        by_cases hcq : litLen c2 rest2 1 = 1
        · have hTag0 : litTag (litLen c2 rest2 1) = 0 := by
            rw [hcq]
            rfl
          have hE1 : ((c1 :: c2 :: rest2).take (litLen c2 rest2 1)).flatten = c1 := by
            rw [hcq]
            simp
          have h1 : pollReadStep ⟨k, bpl, fb, lbuf, r, .beginInlineBlock s, B⟩
              (0 :: (c1 ++ (encBlocks ((c1 :: c2 :: rest2).drop (litLen c2 rest2 1)) ++ rest))) B [] =
              .next ⟨k, bpl, fb, lbuf, r, .readInlineBlock 0 s k, B⟩
                (c1 ++ (encBlocks ((c1 :: c2 :: rest2).drop (litLen c2 rest2 1)) ++ rest)) B [] := by
            have h0 := stepBIB_run k bpl fb B lbuf r 0 s
              (c1 ++ (encBlocks ((c1 :: c2 :: rest2).drop (litLen c2 rest2 1)) ++ rest)) B []
              (by omega) (by rw [hlb]; have := hext; rw [hcq] at this; omega)
            simpa using h0
          have h2 : pollReadStep ⟨k, bpl, fb, lbuf, r, .readInlineBlock 0 s k, B⟩
              (c1 ++ (encBlocks ((c1 :: c2 :: rest2).drop (litLen c2 rest2 1)) ++ rest)) B [] =
              .next ⟨k, bpl, fb, lbuf.take s ++ c1 ++ lbuf.drop (s + k), r,
                .useBuffer (s + k) 0, B⟩
                (encBlocks ((c1 :: c2 :: rest2).drop (litLen c2 rest2 1)) ++ rest) (B - k) ([] ++ c1) :=
            stepRIB_lit k bpl fb B L lbuf c1 (encBlocks ((c1 :: c2 :: rest2).drop (litLen c2 rest2 1)) ++ rest) [] r s k B
              hlb hsle (by omega) hc1k
              (by have := hBge; rw [hcq] at this; omega)
              (by have := hfit2; rw [hcq] at this; omega)
          have hpoll : pollRead ⟨k, bpl, fb, lbuf, r, .beginInlineBlock s, B⟩
              (0 :: (c1 ++ (encBlocks ((c1 :: c2 :: rest2).drop (litLen c2 rest2 1)) ++ rest)))
              (Decoder.bytesRemaining ⟨k, bpl, fb, lbuf, r, .beginInlineBlock s, B⟩)
              (G2 + 1 + 1) =
              some (.ok (((c1 :: c2 :: rest2).take (litLen c2 rest2 1)).flatten),
                ⟨k, bpl, fb,
                  lbuf.take s ++ ((c1 :: c2 :: rest2).take (litLen c2 rest2 1)).flatten ++ lbuf.drop (s + (litLen c2 rest2 1) * k), r,
                  .beginInlineBlock (s + (litLen c2 rest2 1) * k), B - (litLen c2 rest2 1) * k⟩,
                encBlocks ((c1 :: c2 :: rest2).drop (litLen c2 rest2 1)) ++ rest) := by
            rw [pollRead_pos _ _ _ hB0,
              show (G2 + 1 + 1 : Nat) = (G2 + 1) + 1 from rfl,
              pollReadLoop_next _ h1, pollReadLoop_next _ h2]
            have hsk : s + (litLen c2 rest2 1) * k = s + k := by
              rw [hcq]
              omega
            rw [show lbuf.take s ++ ((c1 :: c2 :: rest2).take (litLen c2 rest2 1)).flatten ++ lbuf.drop (s + (litLen c2 rest2 1) * k) =
                lbuf.take s ++ c1 ++ lbuf.drop (s + k) from by rw [hE1, hsk]]
            rw [show (⟨k, bpl, fb, lbuf.take s ++ c1 ++ lbuf.drop (s + k), r,
                .beginInlineBlock (s + (litLen c2 rest2 1) * k), B - (litLen c2 rest2 1) * k⟩ : Decoder) =
              ⟨k, bpl, fb, lbuf.take s ++ c1 ++ lbuf.drop (s + k), r,
                .beginInlineBlock (s + k), B - k⟩ from by rw [hsk, hcq, Nat.one_mul]]
            rw [hE1]
            have h3b := stepUB_mid k bpl fb B
              (lbuf.take s ++ c1 ++ lbuf.drop (s + k))
              (encBlocks ((c1 :: c2 :: rest2).drop (litLen c2 rest2 1)) ++ rest) ([] ++ c1) r (s + k) (B - k)
              (by
                have hx := hnotend
                rw [hE1, hsk] at hx
                exact hx)
              (by simpa using hc1ne)
            rw [pollReadLoop_done h3b]
            simp only [List.nil_append, hc1k]
          have hglue := decLine_glue k bpl fb (c1 :: c2 :: rest2) ((c1 :: c2 :: rest2).drop (litLen c2 rest2 1))
            (((c1 :: c2 :: rest2).take (litLen c2 rest2 1)).flatten) (0 :: (c1 ++ (encBlocks ((c1 :: c2 :: rest2).drop (litLen c2 rest2 1)) ++ rest))) rest tail lbuf
            ⟨k, bpl, fb,
              lbuf.take s ++ ((c1 :: c2 :: rest2).take (litLen c2 rest2 1)).flatten ++ lbuf.drop (s + (litLen c2 rest2 1) * k), r,
              .beginInlineBlock (s + (litLen c2 rest2 1) * k), B - (litLen c2 rest2 1) * k⟩
            s B r (G2 + 1) hEne hB0 hflatsplit hpoll hrec0
          rw [hBlk, hTag0, hE1, List.cons_append, List.append_assoc]
          exact hglue
        · have hcnt2 : 2 ≤ litLen c2 rest2 1 := by omega
          have h1 : pollReadStep ⟨k, bpl, fb, lbuf, r, .beginInlineBlock s, B⟩
              (litTag (litLen c2 rest2 1) :: (((c1 :: c2 :: rest2).take (litLen c2 rest2 1)).flatten ++ (encBlocks ((c1 :: c2 :: rest2).drop (litLen c2 rest2 1)) ++ rest))) B [] =
              .next ⟨k, bpl, fb, lbuf, r, .readInlineBlock 0 s ((litLen c2 rest2 1) * k), B⟩
                (((c1 :: c2 :: rest2).take (litLen c2 rest2 1)).flatten ++ (encBlocks ((c1 :: c2 :: rest2).drop (litLen c2 rest2 1)) ++ rest)) B [] :=
            stepBIB_lit k bpl fb B lbuf r (litLen c2 rest2 1) s
              (((c1 :: c2 :: rest2).take (litLen c2 rest2 1)).flatten ++ (encBlocks ((c1 :: c2 :: rest2).drop (litLen c2 rest2 1)) ++ rest)) B [] hcnt2 hcnt7f
              (by rw [hlb]; omega)
          have h2 : pollReadStep ⟨k, bpl, fb, lbuf, r,
              .readInlineBlock 0 s ((litLen c2 rest2 1) * k), B⟩
              (((c1 :: c2 :: rest2).take (litLen c2 rest2 1)).flatten ++ (encBlocks ((c1 :: c2 :: rest2).drop (litLen c2 rest2 1)) ++ rest)) B [] =
              .next ⟨k, bpl, fb,
                lbuf.take s ++ ((c1 :: c2 :: rest2).take (litLen c2 rest2 1)).flatten ++ lbuf.drop (s + (litLen c2 rest2 1) * k), r,
                .useBuffer (s + (litLen c2 rest2 1) * k) 0, B⟩
                (encBlocks ((c1 :: c2 :: rest2).drop (litLen c2 rest2 1)) ++ rest) (B - (litLen c2 rest2 1) * k) ([] ++ ((c1 :: c2 :: rest2).take (litLen c2 rest2 1)).flatten) :=
            stepRIB_lit k bpl fb B L lbuf (((c1 :: c2 :: rest2).take (litLen c2 rest2 1)).flatten) (encBlocks ((c1 :: c2 :: rest2).drop (litLen c2 rest2 1)) ++ rest) []
              r s ((litLen c2 rest2 1) * k) B hlb hsle
              (by
                have h1 : 1 * 1 ≤ (litLen c2 rest2 1) * k := Nat.mul_le_mul (by omega) hk
                omega)
              hElen hBge hfit2
          have hpoll : pollRead ⟨k, bpl, fb, lbuf, r, .beginInlineBlock s, B⟩
              (litTag (litLen c2 rest2 1) :: (((c1 :: c2 :: rest2).take (litLen c2 rest2 1)).flatten ++ (encBlocks ((c1 :: c2 :: rest2).drop (litLen c2 rest2 1)) ++ rest)))
              (Decoder.bytesRemaining ⟨k, bpl, fb, lbuf, r, .beginInlineBlock s, B⟩)
              (G2 + 1 + 1) =
              some (.ok (((c1 :: c2 :: rest2).take (litLen c2 rest2 1)).flatten),
                ⟨k, bpl, fb,
                  lbuf.take s ++ ((c1 :: c2 :: rest2).take (litLen c2 rest2 1)).flatten ++ lbuf.drop (s + (litLen c2 rest2 1) * k), r,
                  .beginInlineBlock (s + (litLen c2 rest2 1) * k), B - (litLen c2 rest2 1) * k⟩,
                encBlocks ((c1 :: c2 :: rest2).drop (litLen c2 rest2 1)) ++ rest) := by
            rw [pollRead_pos _ _ _ hB0,
              show (G2 + 1 + 1 : Nat) = (G2 + 1) + 1 from rfl,
              pollReadLoop_next _ h1, pollReadLoop_next _ h2, pollReadLoop_done h3]
            simp only [List.nil_append, hElen]
          have hglue := decLine_glue k bpl fb (c1 :: c2 :: rest2) ((c1 :: c2 :: rest2).drop (litLen c2 rest2 1))
            (((c1 :: c2 :: rest2).take (litLen c2 rest2 1)).flatten) (litTag (litLen c2 rest2 1) :: (((c1 :: c2 :: rest2).take (litLen c2 rest2 1)).flatten ++ (encBlocks ((c1 :: c2 :: rest2).drop (litLen c2 rest2 1)) ++ rest)))
            rest tail lbuf
            ⟨k, bpl, fb,
              lbuf.take s ++ ((c1 :: c2 :: rest2).take (litLen c2 rest2 1)).flatten ++ lbuf.drop (s + (litLen c2 rest2 1) * k), r,
              .beginInlineBlock (s + (litLen c2 rest2 1) * k), B - (litLen c2 rest2 1) * k⟩
            s B r (G2 + 1) hEne hB0 hflatsplit hpoll hrec0
          rw [hBlk, List.cons_append, List.append_assoc]
          exact hglue

theorem pollReadLoop_mono : ∀ (f : Nat) (d : Decoder) (input : List Nat) (bs : Nat)
    (acc : List Nat) (res : Except IOErrorKind (List Nat) × Decoder × List Nat) (f2 : Nat),
    f ≤ f2 → pollReadLoop f d input bs acc = some res →
    pollReadLoop f2 d input bs acc = some res := by
  intro f
  induction f with
  | zero =>
    intro d input bs acc res f2 hf h
    cases hstep : pollReadStep d input bs acc with
    | done r =>
      rw [pollReadLoop_done hstep] at h ⊢
      exact h
    | next d1 i1 b1 a1 =>
      simp [pollReadLoop, hstep] at h
  | succ f ih =>
    intro d input bs acc res f2 hf h
    obtain ⟨f3, rfl⟩ : ∃ f3, f2 = f3 + 1 := ⟨f2 - 1, by omega⟩
    cases hstep : pollReadStep d input bs acc with
    | done r =>
      rw [pollReadLoop_done hstep] at h ⊢
      exact h
    | next d1 i1 b1 a1 =>
      rw [pollReadLoop_next f hstep] at h
      rw [pollReadLoop_next f3 hstep]
      exact ih d1 i1 b1 a1 res f3 (by omega) h

theorem pollRead_mono (d : Decoder) (input : List Nat) (bufLen : Nat)
    (res : Except IOErrorKind (List Nat) × Decoder × List Nat) (f f2 : Nat)
    (hf : f ≤ f2) (h : pollRead d input bufLen f = some res) :
    pollRead d input bufLen f2 = some res := by
  rw [pollRead] at h ⊢
  by_cases h0 : min d.bytesRemaining bufLen = 0
  · rw [if_pos h0] at h ⊢
    exact h
  · rw [if_neg h0] at h ⊢
    exact pollReadLoop_mono f d input _ [] res f2 hf h

theorem decodeAll_mono : ∀ (f : Nat) (d : Decoder) (input : List Nat) (tl : List Nat)
    (f2 : Nat), f ≤ f2 → decodeAll f d input = some (.ok tl) →
    decodeAll f2 d input = some (.ok tl) := by
  intro f
  induction f with
  | zero =>
    intro d input tl f2 hf h
    rw [decodeAll] at h
    simp at h
  | succ f ih =>
    intro d input tl f2 hf h
    obtain ⟨f3, rfl⟩ : ∃ f3, f2 = f3 + 1 := ⟨f2 - 1, by omega⟩
    rw [decodeAll] at h
    rw [decodeAll]
    by_cases hB : d.bytesRemaining = 0
    · rw [if_pos hB] at h ⊢
      exact h
    · rw [if_neg hB] at h ⊢
      cases hp : pollRead d input d.bytesRemaining (f + 1) with
      | none =>
        rw [hp] at h
        simp at h
      | some res =>
        have hp2 : pollRead d input d.bytesRemaining (f3 + 1) = some res :=
          pollRead_mono _ _ _ _ _ _ (by omega) hp
        rw [hp] at h
        rw [hp2]
        obtain ⟨e, d1, i1⟩ := res
        cases e with
        | error err => simpa using h
        | ok out =>
          dsimp only at h ⊢
          by_cases ho : out.length = 0
          · rw [if_pos ho] at h ⊢
            exact h
          · rw [if_neg ho] at h ⊢
            cases hd : decodeAll f d1 i1 with
            | none =>
              rw [hd] at h
              simp at h
            | some r2 =>
              cases r2 with
              | error err2 =>
                rw [hd] at h
                simp at h
              | ok tl2 =>
                rw [hd] at h
                rw [ih d1 i1 tl2 f3 (by omega) hd]
                exact h

/-- Shifting a drive across the `Begin` step: reading the line-repeat byte
costs one loop iteration of the same `poll_read` call. -/
theorem decodeAll_begin_shift (k bpl fb B : Nat) (lbuf : List Nat) (r0 rb : Nat)
    (bytes : List Nat) (G : Nat) (X : List Nat)
    (hB0 : B ≠ 0)
    (h : decodeAll G ⟨k, bpl, fb, lbuf, rb, .beginInlineBlock 0, B⟩ bytes =
      some (.ok X)) :
    decodeAll (G + 1) ⟨k, bpl, fb, lbuf, r0, .begin, B⟩ (rb :: bytes) =
      some (.ok X) := by
  obtain ⟨G2, rfl⟩ : ∃ G2, G = G2 + 1 := by
    cases G with
    | zero =>
      rw [decodeAll] at h
      simp at h
    | succ G2 => exact ⟨G2, rfl⟩
  rw [decodeAll] at h
  rw [decodeAll]
  rw [if_neg hB0] at h ⊢
  have hpr : pollRead ⟨k, bpl, fb, lbuf, r0, .begin, B⟩ (rb :: bytes)
      (Decoder.bytesRemaining ⟨k, bpl, fb, lbuf, r0, .begin, B⟩) (G2 + 1 + 1) =
      pollRead ⟨k, bpl, fb, lbuf, rb, .beginInlineBlock 0, B⟩ bytes
        (Decoder.bytesRemaining ⟨k, bpl, fb, lbuf, rb, .beginInlineBlock 0, B⟩)
        (G2 + 1) := by
    rw [pollRead_pos _ _ _ hB0, pollRead_pos _ _ _ hB0]
    exact loopBegin k bpl fb B lbuf r0 rb bytes B [] (G2 + 1)
  rw [hpr]
  cases hp : pollRead ⟨k, bpl, fb, lbuf, rb, .beginInlineBlock 0, B⟩ bytes
      (Decoder.bytesRemaining ⟨k, bpl, fb, lbuf, rb, .beginInlineBlock 0, B⟩)
      (G2 + 1) with
  | none =>
    rw [hp] at h
    simp at h
  | some res =>
    rw [hp] at h
    obtain ⟨e, d1, i1⟩ := res
    cases e with
    | error err => simpa using h
    | ok out =>
      dsimp only at h ⊢
      by_cases ho : out.length = 0
      · rw [if_pos ho] at h ⊢
        exact h
      · rw [if_neg ho] at h ⊢
        cases hd : decodeAll G2 d1 i1 with
        | none =>
          rw [hd] at h
          simp at h
        | some r2 =>
          cases r2 with
          | error err2 =>
            rw [hd] at h
            simp at h
          | ok tl2 =>
            rw [hd] at h
            rw [decodeAll_mono G2 d1 i1 tl2 (G2 + 1) (by omega) hd]
            exact h

theorem flatten_replicate_comm (m : Nat) (l : List Nat) :
    (List.replicate m l).flatten ++ l = l ++ (List.replicate m l).flatten := by
  induction m with
  | zero => simp
  | succ m ih =>
    rw [List.replicate_succ, List.flatten_cons, List.append_assoc, ih,
      ← List.append_assoc]

/-- Decoding one full line group `encLine k rb stored`: the `Begin` call reads
the repeat byte, the block machinery replays the line `rb + 1` times, and the
drive continues on the remaining groups. -/
theorem decGroup_one (k bpl fb L : Nat) (hk : 1 ≤ k) (hL : 0 < L) (hdvd : k ∣ L)
    (stored : List Nat) (hst : stored.length = L)
    (rb : Nat) (lbuf : List Nat) (hlb : lbuf.length = L)
    (bytes tail : List Nat) (T X2 : Nat)
    (hcont : ∀ G, X2 ≤ G →
      decodeAll G ⟨k, bpl, fb, stored, 0, .begin, T⟩ bytes = some (.ok tail)) :
    ∀ F, X2 + (chunksOf k stored).length + rb + 4 ≤ F →
      decodeAll F ⟨k, bpl, fb, lbuf, 0, .begin, (rb + 1) * L + T⟩
        (encLine k rb stored ++ bytes) =
      some (.ok ((List.replicate (rb + 1) stored).flatten ++ tail)) := by
  have hflat : (chunksOf k stored).flatten = stored :=
    chunksOf_flatten k hk stored.length stored le_rfl
  have hmem : ∀ c ∈ chunksOf k stored, c.length = k :=
    chunksOf_length_mem k hk stored.length stored le_rfl (by rw [hst]; exact hdvd)
  have hkcs : k * (chunksOf k stored).length = L := by
    have h1 := flatten_len_of_chunks k (chunksOf k stored) hmem
    rw [hflat, hst] at h1
    have h2 : (chunksOf k stored).length * k = k * (chunksOf k stored).length :=
      Nat.mul_comm _ _
    omega
  have hcsne : chunksOf k stored ≠ [] := by
    cases hsd : stored with
    | nil =>
      rw [hsd] at hst
      simp at hst
      omega
    | cons a l2 => exact chunksOf_ne_nil k a l2 hk
  have hmul : (rb + 1) * L = rb * L + L := Nat.succ_mul rb L
  have hB0 : (rb + 1) * L + T ≠ 0 := by omega
  have hbuf : List.take 0 lbuf ++ (chunksOf k stored).flatten = stored := by
    rw [List.take_zero, List.nil_append, hflat]
  have hcont2 : ∀ G, X2 ≤ G →
      decodeAll G ⟨k, bpl, fb,
        List.take 0 lbuf ++ (chunksOf k stored).flatten, 0, .begin, T⟩ bytes =
      some (.ok tail) := by
    intro G hG
    rw [hbuf]
    exact hcont G hG
  intro F hF
  obtain ⟨F2, rfl⟩ : ∃ F2, F = F2 + 1 := ⟨F - 1, by omega⟩
  have hline := decLine k bpl fb L hk (chunksOf k stored).length (chunksOf k stored) le_rfl
    hcsne hmem 0 lbuf rb ((rb + 1) * L + T) T bytes tail X2 hlb
    (by omega) (by omega) hcont2 F2 (by omega)
  rw [hbuf] at hline
  rw [hflat] at hline
  have hshift := decodeAll_begin_shift k bpl fb ((rb + 1) * L + T) lbuf 0 rb
    (encBlocks (chunksOf k stored) ++ bytes) F2
    (stored ++ ((List.replicate rb stored).flatten ++ tail)) hB0
    (by
      rw [← List.append_assoc]
      exact hline)
  rw [show encLine k rb stored ++ bytes =
      rb :: (encBlocks (chunksOf k stored) ++ bytes) from by
    rw [encLine, List.cons_append]]
  rw [hshift]
  rw [List.replicate_succ, List.flatten_cons, List.append_assoc]

/-- Decoding a whole `encGroups` stream: the declared budget is the pending
group's expansion plus all remaining lines; the drive returns exactly those
bytes. -/
theorem decGroups (k bpl fb L : Nat) (hk : 1 ≤ k) (hL : 0 < L) (hdvd : k ∣ L) :
    ∀ (n : Nat) (lines : List (List Nat)) (st : Option (Nat × List Nat)),
      2 * lines.length + (if st.isSome then 1 else 0) ≤ n →
      (∀ l ∈ lines, l.length = L) →
      (∀ p, st = some p → p.2.length = L ∧ lines ≠ []) →
      ∀ (lbuf : List Nat), lbuf.length = L →
      ∃ X, ∀ F, X ≤ F →
        decodeAll F ⟨k, bpl, fb, lbuf, 0, .begin,
            (st.elim 0 fun p => (p.1 + 1) * L) + lines.flatten.length⟩
          (encGroups k st lines) =
        some (.ok ((st.elim [] fun p => (List.replicate (p.1 + 1) p.2).flatten) ++
          lines.flatten)) := by
  intro n
  induction n with
  | zero =>
    intro lines st hn hall hst lbuf hlb
    cases lines with
    | cons l rest =>
      simp only [List.length_cons] at hn
      omega
    | nil =>
      cases st with
      | some p => exact absurd rfl (hst p rfl).2
      | none =>
        refine ⟨1, ?_⟩
        intro F hF
        obtain ⟨F2, rfl⟩ : ∃ F2, F = F2 + 1 := ⟨F - 1, by omega⟩
        rw [show encGroups k none [] = [] from by rw [encGroups]]
        rw [decodeAll, if_pos (by simp)]
        simp
  | succ n ih =>
    intro lines st hn hall hst lbuf hlb
    cases lines with
    | nil =>
      cases st with
      | some p => exact absurd rfl (hst p rfl).2
      | none =>
        refine ⟨1, ?_⟩
        intro F hF
        obtain ⟨F2, rfl⟩ : ∃ F2, F = F2 + 1 := ⟨F - 1, by omega⟩
        rw [show encGroups k none [] = [] from by rw [encGroups]]
        rw [decodeAll, if_pos (by simp)]
        simp
    | cons l rest =>
      have hlL : l.length = L := hall l (by simp)
      have hrall : ∀ l2 ∈ rest, l2.length = L := fun l2 h2 => hall l2 (by simp [h2])
      cases st with
      | none =>
        by_cases hr0 : rest = []
        · subst hr0
          refine ⟨1 + (chunksOf k l).length + 0 + 4, ?_⟩
          intro F hF
          rw [show encGroups k none [l] = encLine k 0 l from by rw [encGroups]; simp]
          have hbase : ∀ G, 1 ≤ G →
              decodeAll G ⟨k, bpl, fb, l, 0, .begin, 0⟩ [] = some (.ok []) := by
            intro G hG
            obtain ⟨G2, rfl⟩ : ∃ G2, G = G2 + 1 := ⟨G - 1, by omega⟩
            rw [decodeAll, if_pos rfl]
          have h1 := decGroup_one k bpl fb L hk hL hdvd l hlL 0 lbuf hlb [] [] 0 1
            hbase F (by omega)
          rw [List.append_nil] at h1
          rw [show (Option.elim (none : Option (Nat × List Nat)) 0
                fun p => (p.1 + 1) * L) + ([l] : List (List Nat)).flatten.length =
              (0 + 1) * L + 0 from by simp [hlL]]
          rw [h1]
          simp
        · rw [show encGroups k none (l :: rest) = encGroups k (some (0, l)) rest from by
            rw [encGroups]; rw [if_neg hr0]]
          obtain ⟨X, hX⟩ := ih rest (some (0, l))
            (by
              simp at hn ⊢
              omega)
            hrall
            (by
              intro p hp
              have hp2 : p = (0, l) := by
                injection hp with h2
                exact h2.symm
              subst hp2
              exact ⟨hlL, hr0⟩)
            lbuf hlb
          refine ⟨X, ?_⟩
          intro F hF
          have h2 := hX F hF
          rw [show (Option.elim (some ((0 : Nat), l)) 0
                fun p => (p.1 + 1) * L) + rest.flatten.length =
              (Option.elim (none : Option (Nat × List Nat)) 0
                fun p => (p.1 + 1) * L) + (l :: rest).flatten.length from by
            simp [hlL]] at h2
          rw [show (Option.elim (some ((0 : Nat), l)) []
                fun p => (List.replicate (p.1 + 1) p.2).flatten) ++ rest.flatten =
              (Option.elim (none : Option (Nat × List Nat)) []
                fun p => (List.replicate (p.1 + 1) p.2).flatten) ++
                (l :: rest).flatten from by simp] at h2
          exact h2
      | some p =>
        obtain ⟨r2, stored⟩ := p
        have hstoredL : stored.length = L := (hst (r2, stored) rfl).1
        by_cases hls : l = stored
        · by_cases hflush : r2 + 1 = 255 ∨ rest = []
          · rw [show encGroups k (some (r2, stored)) (l :: rest) =
                encLine k (r2 + 1) stored ++ encGroups k none rest from by
              rw [encGroups]; rw [if_pos hls, if_pos hflush]]
            obtain ⟨X2, hX2⟩ := ih rest none
              (by
                simp at hn ⊢
                omega)
              hrall
              (by intro p hp; simp at hp)
              stored hstoredL
            refine ⟨X2 + (chunksOf k stored).length + (r2 + 1) + 4, ?_⟩
            intro F hF
            have h1 := decGroup_one k bpl fb L hk hL hdvd stored hstoredL (r2 + 1)
              lbuf hlb (encGroups k none rest)
              ((Option.elim (none : Option (Nat × List Nat)) []
                fun p => (List.replicate (p.1 + 1) p.2).flatten) ++ rest.flatten)
              ((Option.elim (none : Option (Nat × List Nat)) 0
                fun p => (p.1 + 1) * L) + rest.flatten.length)
              X2 hX2 F (by omega)
            rw [show (Option.elim (some (r2, stored)) 0
                  fun p => (p.1 + 1) * L) + (l :: rest).flatten.length =
                (r2 + 1 + 1) * L +
                  ((Option.elim (none : Option (Nat × List Nat)) 0
                    fun p => (p.1 + 1) * L) + rest.flatten.length) from by
              simp only [Option.elim, List.flatten_cons, List.length_append]
              have hm1 := Nat.succ_mul (r2 + 1) L
              simp only [Nat.succ_eq_add_one] at hm1
              omega]
            rw [h1]
            rw [show (List.replicate (r2 + 1 + 1) stored).flatten ++
                ((Option.elim (none : Option (Nat × List Nat)) []
                  fun p => (List.replicate (p.1 + 1) p.2).flatten) ++ rest.flatten) =
              (Option.elim (some (r2, stored)) []
                fun p => (List.replicate (p.1 + 1) p.2).flatten) ++
                (l :: rest).flatten from by
              simp only [Option.elim, List.nil_append, List.flatten_cons]
              rw [List.replicate_succ, List.flatten_cons, hls,
                ← List.append_assoc, ← flatten_replicate_comm, List.append_assoc]]
          · push_neg at hflush
            rw [show encGroups k (some (r2, stored)) (l :: rest) =
                encGroups k (some (r2 + 1, stored)) rest from by
              rw [encGroups]
              rw [if_pos hls, if_neg (by push_neg; exact hflush)]]
            obtain ⟨X, hX⟩ := ih rest (some (r2 + 1, stored))
              (by
                simp at hn ⊢
                omega)
              hrall
              (by
                intro p hp
                have hp2 : p = (r2 + 1, stored) := by
                  injection hp with h2
                  exact h2.symm
                subst hp2
                exact ⟨hstoredL, hflush.2⟩)
              lbuf hlb
            refine ⟨X, ?_⟩
            intro F hF
            have h2 := hX F hF
            rw [show (Option.elim (some (r2 + 1, stored)) 0
                  fun p => (p.1 + 1) * L) + rest.flatten.length =
                (Option.elim (some (r2, stored)) 0
                  fun p => (p.1 + 1) * L) + (l :: rest).flatten.length from by
              simp only [Option.elim, List.flatten_cons, List.length_append]
              have hm1 := Nat.succ_mul (r2 + 1) L
              simp only [Nat.succ_eq_add_one] at hm1
              omega] at h2
            rw [show (Option.elim (some (r2 + 1, stored)) []
                  fun p => (List.replicate (p.1 + 1) p.2).flatten) ++ rest.flatten =
                (Option.elim (some (r2, stored)) []
                  fun p => (List.replicate (p.1 + 1) p.2).flatten) ++
                  (l :: rest).flatten from by
              simp only [Option.elim, List.flatten_cons]
              rw [hls, ← List.append_assoc, List.replicate_succ, List.flatten_cons,
                ← flatten_replicate_comm]] at h2
            exact h2
        · have hunf : encGroups k (some (r2, stored)) (l :: rest) =
              encLine k r2 stored ++ encGroups k none (l :: rest) := by
            conv_lhs => rw [encGroups]
            rw [if_neg hls]
          rw [hunf]
          obtain ⟨X2, hX2⟩ := ih (l :: rest) none
            (by
              simp at hn ⊢
              omega)
            hall
            (by intro p hp; simp at hp)
            stored hstoredL
          refine ⟨X2 + (chunksOf k stored).length + r2 + 4, ?_⟩
          intro F hF
          have h1 := decGroup_one k bpl fb L hk hL hdvd stored hstoredL r2
            lbuf hlb (encGroups k none (l :: rest))
            ((Option.elim (none : Option (Nat × List Nat)) []
              fun p => (List.replicate (p.1 + 1) p.2).flatten) ++ (l :: rest).flatten)
            ((Option.elim (none : Option (Nat × List Nat)) 0
              fun p => (p.1 + 1) * L) + (l :: rest).flatten.length)
            X2 hX2 F (by omega)
          rw [show (Option.elim (some (r2, stored)) 0
                fun p => (p.1 + 1) * L) + (l :: rest).flatten.length =
              (r2 + 1) * L +
                ((Option.elim (none : Option (Nat × List Nat)) 0
                  fun p => (p.1 + 1) * L) + (l :: rest).flatten.length) from by
            simp only [Option.elim]
            omega]
          rw [h1]
          rw [show (List.replicate (r2 + 1) stored).flatten ++
              ((Option.elim (none : Option (Nat × List Nat)) []
                fun p => (List.replicate (p.1 + 1) p.2).flatten) ++
                (l :: rest).flatten) =
            (Option.elim (some (r2, stored)) []
              fun p => (List.replicate (p.1 + 1) p.2).flatten) ++
              (l :: rest).flatten from by
            simp only [Option.elim, List.nil_append]]

/-- C1: for every byte string `data` and parameters with `chunk_size ≥ 1`,
`bytes_per_line` a positive multiple of `chunk_size`, and `|data|` a multiple
of `bytes_per_line`, writing `data` through `CompressedRasterEncoder`
(`num_bytes = |data|`) and reading the produced bytes back through
`CompressedRasterDecoder` (same `chunk_size`, `bytes_per_line`,
`num_bytes`, no limits) yields exactly `data`. -/
theorem c1_round_trip (k bpl fb : Nat) (data : List Nat)
    (hk : 1 ≤ k) (hbpl : 0 < bpl) (hdvd : bpl % k = 0) (hlen : data.length % bpl = 0)
    (hbl : bpl ≤ u64Max) (hnb : data.length ≤ u64Max) :
    ∃ (enc : List Nat) (d : Decoder) (fuel : Nat),
      encodeData k bpl data = some enc ∧
      Decoder.new Limits.noLimits k bpl data.length fb = .ok d ∧
      ∀ F, fuel ≤ F → decodeAll F d enc = some (.ok data) := by
  have hnew : Decoder.new Limits.noLimits k bpl data.length fb =
      .ok ⟨k, bpl, fb, List.replicate (min bpl data.length) 0, 0, .begin,
        data.length⟩ := by
    rw [Decoder.new]
    rw [if_neg (by simp only [Limits.noLimits]; omega)]
    rw [if_neg (by simp only [Limits.noLimits]; omega)]
    rw [if_neg (by push_neg; intro _; constructor <;> omega)]
    rw [if_neg (by push_neg; intro _; constructor <;> omega)]
  by_cases hd0 : data = []
  · subst hd0
    refine ⟨[], ⟨k, bpl, fb, List.replicate (min bpl 0) 0, 0, .begin, 0⟩, 1,
      ?_, ?_, ?_⟩
    · rw [encodeData_eq_encGroups k bpl [] hk hbpl hdvd (by simp)]
      rw [show chunksOf bpl [] = [] from by simp [chunksOf]]
      rw [show encGroups k none [] = [] from by rw [encGroups]]
    · simpa using hnew
    · intro F hF
      obtain ⟨F2, rfl⟩ : ∃ F2, F = F2 + 1 := ⟨F - 1, by omega⟩
      rw [decodeAll, if_pos rfl]
  · have hlpos : 0 < data.length := List.length_pos.mpr hd0
    have hbpl_le : bpl ≤ data.length := by
      rcases Nat.lt_or_ge data.length bpl with h | h
      · have h0 : data.length % bpl = data.length := Nat.mod_eq_of_lt h
        omega
      · exact h
    have hmin : min bpl data.length = bpl := by omega
    have hdvd2 : k ∣ bpl := Nat.dvd_of_mod_eq_zero hdvd
    have hflat : (chunksOf bpl data).flatten = data :=
      chunksOf_flatten bpl (by omega) data.length data le_rfl
    have hmem : ∀ c ∈ chunksOf bpl data, c.length = bpl :=
      chunksOf_length_mem bpl (by omega) data.length data le_rfl
        (Nat.dvd_of_mod_eq_zero hlen)
    obtain ⟨X, hX⟩ := decGroups k bpl fb bpl hk hbpl hdvd2
      (2 * (chunksOf bpl data).length) (chunksOf bpl data) none (by simp) hmem
      (by intro p hp; simp at hp) (List.replicate bpl 0) (by simp)
    refine ⟨encGroups k none (chunksOf bpl data),
      ⟨k, bpl, fb, List.replicate (min bpl data.length) 0, 0, .begin, data.length⟩,
      X, ?_, ?_, ?_⟩
    · exact encodeData_eq_encGroups k bpl data hk hbpl hdvd hlen
    · exact hnew
    · intro F hF
      have h1 := hX F hF
      rw [show (⟨k, bpl, fb, List.replicate (min bpl data.length) 0, 0, .begin,
            data.length⟩ : Decoder) =
          ⟨k, bpl, fb, List.replicate bpl 0, 0, .begin,
            (Option.elim (none : Option (Nat × List Nat)) 0
              fun p => (p.1 + 1) * bpl) + (chunksOf bpl data).flatten.length⟩ from by
        rw [hmin]
        simp only [Option.elim, hflat, Nat.zero_add]]
      rw [h1]
      simp only [Option.elim, List.nil_append, hflat]

/-- Witness for `c1_round_trip`: chunk size 1, one line of one byte. -/
theorem c1_round_trip_witness :
    1 ≤ 1 ∧ 0 < 1 ∧ 1 % 1 = 0 ∧ ([5] : List Nat).length % 1 = 0 ∧
      1 ≤ u64Max ∧ ([5] : List Nat).length ≤ u64Max ∧
      ∃ (enc : List Nat) (d : Decoder) (fuel : Nat),
        encodeData 1 1 [5] = some enc ∧
        Decoder.new Limits.noLimits 1 1 ([5] : List Nat).length 0 = .ok d ∧
        ∀ F, fuel ≤ F → decodeAll F d enc = some (.ok [5]) :=
  ⟨by decide, by decide, by decide, by decide, by decide, by decide,
    c1_round_trip 1 1 0 [5] (by decide) (by decide) (by decide) (by decide)
      (by decide) (by decide)⟩

/-! ### C9: the highly repetitive vector -/

theorem chunksOf_replicate (k : Nat) (x : Nat) (hk : 1 ≤ k) :
    ∀ m, chunksOf k (List.replicate (m * k) x) =
      List.replicate m (List.replicate k x) := by
  intro m
  induction m with
  | zero => simp [chunksOf]
  | succ m ih =>
    have hs : (m + 1) * k = m * k + k := Nat.succ_mul m k
    rw [hs]
    obtain ⟨j, hj⟩ : ∃ j, m * k + k = j + 1 := ⟨m * k + k - 1, by omega⟩
    rw [show List.replicate (m * k + k) x = x :: List.replicate j x from by
      rw [hj, List.replicate_succ]]
    rw [chunksOf_cons k x (List.replicate j x) hk]
    rw [show (x :: List.replicate j x) = List.replicate (j + 1) x from by
      rw [List.replicate_succ]]
    rw [List.take_replicate, List.drop_replicate]
    rw [show min k (j + 1) = k from by omega,
      show j + 1 - k = m * k from by omega]
    rw [ih, List.replicate_succ]

theorem runLen_replicate (c : List Nat) :
    ∀ (p t : Nat), t ≤ 127 →
      runLen c (List.replicate p c) t = min (t + p) 127 := by
  intro p
  induction p with
  | zero => intro t ht; simp [runLen]; omega
  | succ p ih =>
    intro t ht
    rw [List.replicate_succ]
    simp only [runLen]
    split
    · rename_i h
      rcases h with h | h
      · exact absurd rfl h
      · omega
    · rename_i h
      push_neg at h
      rw [ih (t + 1) (by omega)]
      omega

theorem encBlocks_replicate_ge128 (c : List Nat) (m : Nat) (hm : 128 ≤ m) :
    encBlocks (List.replicate m c) =
      127 :: (c ++ encBlocks (List.replicate (m - 128) c)) := by
  obtain ⟨m2, rfl⟩ : ∃ m2, m = m2 + 2 := ⟨m - 2, by omega⟩
  have hrep : List.replicate (m2 + 2) c = c :: c :: List.replicate m2 c := by
    rw [List.replicate_succ, List.replicate_succ]
  rw [hrep, encBlocks, if_pos rfl]
  have hrl : runLen c (List.replicate m2 c) 1 = 127 := by
    rw [runLen_replicate c m2 1 (by omega)]
    omega
  rw [hrl]
  have htake : (c :: c :: List.replicate m2 c).take 128 = List.replicate 128 c := by
    rw [← hrep, List.take_replicate, show min 128 (m2 + 2) = 128 from by omega]
  have hgetD : (c :: c :: List.replicate m2 c).getD 127 [] = c := by
    apply getD_of_take_replicate _ _ _ htake
    simp only [List.length_cons, List.length_replicate]
    omega
  have hdrop : (c :: c :: List.replicate m2 c).drop (127 + 1) =
      List.replicate (m2 + 2 - 128) c := by
    rw [← hrep, List.drop_replicate]
  simp only [hgetD, hdrop]

theorem encGroups_replicate_cap (k : Nat) (Lr : List Nat) :
    ∀ (m : Nat), 1 ≤ m → m ≤ 255 → ∀ (rest2 : List (List Nat)),
      encGroups k (some (255 - m, Lr)) (List.replicate m Lr ++ rest2) =
        encLine k 255 Lr ++ encGroups k none rest2 := by
  intro m
  induction m with
  | zero => intro h; omega
  | succ m ih =>
    intro _ hle rest2
    rw [List.replicate_succ, List.cons_append]
    rcases Nat.eq_zero_or_pos m with hm0 | hmpos
    · subst hm0
      rw [List.replicate_zero, List.nil_append]
      rw [encGroups, if_pos rfl, if_pos (by left; omega)]
    · have hne : List.replicate m Lr ++ rest2 ≠ [] := by
        obtain ⟨m3, rfl⟩ : ∃ m3, m = m3 + 1 := ⟨m - 1, by omega⟩
        rw [List.replicate_succ, List.cons_append]
        simp
      rw [encGroups, if_pos rfl,
        if_neg (by push_neg; constructor <;> [omega; exact hne])]
      rw [show 255 - (m + 1) + 1 = 255 - m from by omega]
      exact ih hmpos (by omega) rest2

/-- C9: encoding 786432 copies of `0xCC` with `chunk_size = 3`,
`bytes_per_line = 1536`, `num_bytes = 786432` produces exactly the 34-byte
stream `FF 7F CC CC CC 7F CC CC CC 7F CC CC CC 7F CC CC CC` twice: two
line groups of 255 additional repeats (the cap) each holding four 128-chunk
runs. -/
theorem c9_highly_repetitive :
    encodeData 3 1536 (List.replicate 786432 0xcc) =
      some [0xff, 0x7f, 0xcc, 0xcc, 0xcc, 0x7f, 0xcc, 0xcc, 0xcc,
        0x7f, 0xcc, 0xcc, 0xcc, 0x7f, 0xcc, 0xcc, 0xcc,
        0xff, 0x7f, 0xcc, 0xcc, 0xcc, 0x7f, 0xcc, 0xcc, 0xcc,
        0x7f, 0xcc, 0xcc, 0xcc, 0x7f, 0xcc, 0xcc, 0xcc] := by
  have henc := encodeData_eq_encGroups 3 1536 (List.replicate 786432 0xcc)
    (by omega) (by omega) (by decide)
    (by rw [List.length_replicate])
  rw [henc]
  rw [show List.replicate (786432 : Nat) (0xcc : Nat) =
      List.replicate (512 * 1536) 0xcc from by
    rw [show (786432 : Nat) = 512 * 1536 from by decide]]
  rw [chunksOf_replicate 1536 0xcc (by omega) 512]
  have hrowne : ∀ m : Nat, 1 ≤ m →
      List.replicate m (List.replicate 1536 (0xcc : Nat)) ≠ [] := by
    intro m hm h
    have h2 := congrArg List.length h
    simp only [List.length_replicate, List.length_nil] at h2
    omega
  have hcap : ∀ rest2, encGroups 3 (some (0, List.replicate 1536 (0xcc : Nat)))
      (List.replicate 255 (List.replicate 1536 (0xcc : Nat)) ++ rest2) =
      encLine 3 255 (List.replicate 1536 0xcc) ++ encGroups 3 none rest2 := by
    intro rest2
    have h := encGroups_replicate_cap 3 (List.replicate 1536 0xcc) 255
      (by omega) (by omega) rest2
    rw [show (255 - 255 : Nat) = 0 from by decide] at h
    exact h
  have hsecond : encGroups 3 none
      (List.replicate 256 (List.replicate 1536 (0xcc : Nat))) =
      encLine 3 255 (List.replicate 1536 0xcc) := by
    rw [show (256 : Nat) = 255 + 1 from by decide, List.replicate_succ]
    rw [encGroups, if_neg (hrowne 255 (by omega))]
    rw [show List.replicate 255 (List.replicate 1536 (0xcc : Nat)) =
        List.replicate 255 (List.replicate 1536 (0xcc : Nat)) ++ [] from by
      rw [List.append_nil]]
    rw [hcap []]
    rw [show encGroups 3 none [] = [] from by rw [encGroups], List.append_nil]
  have hgroups : encGroups 3 none
      (List.replicate 512 (List.replicate 1536 (0xcc : Nat))) =
      encLine 3 255 (List.replicate 1536 0xcc) ++
        encLine 3 255 (List.replicate 1536 0xcc) := by
    rw [show (512 : Nat) = 511 + 1 from by decide, List.replicate_succ]
    rw [encGroups, if_neg (hrowne 511 (by omega))]
    rw [show (511 : Nat) = 255 + 256 from by decide, List.replicate_add]
    rw [hcap (List.replicate 256 (List.replicate 1536 0xcc))]
    rw [hsecond]
  rw [hgroups]
  have hrow : chunksOf 3 (List.replicate 1536 (0xcc : Nat)) =
      List.replicate 512 (List.replicate 3 0xcc) := by
    rw [show List.replicate (1536 : Nat) (0xcc : Nat) =
        List.replicate (512 * 3) 0xcc from by
      rw [show (1536 : Nat) = 512 * 3 from by decide]]
    rw [chunksOf_replicate 3 0xcc (by omega) 512]
  have hb4 : encBlocks (List.replicate 128 (List.replicate 3 (0xcc : Nat))) =
      127 :: (List.replicate 3 0xcc ++ []) := by
    rw [encBlocks_replicate_ge128 _ 128 (by omega)]
    rw [show (128 - 128 : Nat) = 0 from by decide, List.replicate_zero]
    rw [show encBlocks [] = [] from by rw [encBlocks]]
  have hb3 : encBlocks (List.replicate 256 (List.replicate 3 (0xcc : Nat))) =
      127 :: (List.replicate 3 0xcc ++ (127 :: (List.replicate 3 0xcc ++ []))) := by
    rw [encBlocks_replicate_ge128 _ 256 (by omega)]
    rw [show (256 - 128 : Nat) = 128 from by decide, hb4]
  have hb2 : encBlocks (List.replicate 384 (List.replicate 3 (0xcc : Nat))) =
      127 :: (List.replicate 3 0xcc ++ (127 :: (List.replicate 3 0xcc ++
        (127 :: (List.replicate 3 0xcc ++ []))))) := by
    rw [encBlocks_replicate_ge128 _ 384 (by omega)]
    rw [show (384 - 128 : Nat) = 256 from by decide, hb3]
  have hb1 : encBlocks (List.replicate 512 (List.replicate 3 (0xcc : Nat))) =
      127 :: (List.replicate 3 0xcc ++ (127 :: (List.replicate 3 0xcc ++
        (127 :: (List.replicate 3 0xcc ++
          (127 :: (List.replicate 3 0xcc ++ []))))))) := by
    rw [encBlocks_replicate_ge128 _ 512 (by omega)]
    rw [show (512 - 128 : Nat) = 384 from by decide, hb2]
  rw [show encLine 3 255 (List.replicate 1536 0xcc) =
      255 :: encBlocks (chunksOf 3 (List.replicate 1536 0xcc)) from rfl]
  rw [hrow, hb1]
  decide

end PrintRaster
